import Mathlib

/-!
Shallow embedding of the DOCSim deterministic race-simulation core
(src/rng.py, src/breeding.py, src/rating.py, src/cpu_pool.py,
src/race_engine.py, src/race_reporting.py, src/records.py) together with
proofs of the spec's testable properties.

Modelling conventions:
* Python floats are embedded as exact rationals (`ℚ`) where the source only
  performs field operations and comparisons, and as reals (`ℝ`) where the
  source takes `sqrt`, `log`, `cos` or a non-integer power.  Float rounding
  is not modelled.
* `hashlib.blake2b` (`hash64`) and the Mersenne-Twister stream behind
  `random.Random` are deterministic pure functions of their inputs; they are
  embedded as an explicit parameter (`RandModel`) consisting of a hash
  function on the stringified argument lists and a function giving the k-th
  `random()` output of a generator seeded with a given seed.  `shuffle` on
  string lists (used only by `select_cpu_field`) is likewise a component of
  the model; Python guarantees it permutes its input, which theorems assume
  explicitly where needed.
* Python dicts are embedded as association lists or as functions into
  `Option`; sets as `Finset`.  Mutation is embedded as explicit state
  passing (updated values are returned).
* `int(x)` is truncation toward zero; `round(x)` is round-half-to-even.
-/

namespace DOCSim

/-! ## Basic enumerated types (src/models.py, src/cpu_pool.py) -/

inductive Surface
  | TURF
  | DIRT
deriving DecidableEq

inductive Condition
  | GOOD
  | GOOD_TO_SOFT
  | SOFT
  | HEAVY
deriving DecidableEq

inductive Style
  | FR
  | SD
  | LS
  | SR
  | AL
deriving DecidableEq

/-- Race slots "1R".."5R","G1" (src/cpu_pool.py `Slot`). -/
inductive Slot
  | R1
  | R2
  | R3
  | R4
  | R5
  | G1
deriving DecidableEq

def surfaceStr : Surface → String
  | .TURF => "TURF"
  | .DIRT => "DIRT"

def conditionStr : Condition → String
  | .GOOD => "GOOD"
  | .GOOD_TO_SOFT => "GOOD_TO_SOFT"
  | .SOFT => "SOFT"
  | .HEAVY => "HEAVY"

def slotStr : Slot → String
  | .R1 => "1R"
  | .R2 => "2R"
  | .R3 => "3R"
  | .R4 => "4R"
  | .R5 => "5R"
  | .G1 => "G1"

/-! ## Data model (src/models.py) -/

structure Internals where
  stamina : ℤ
  speed : ℤ
  sharp : ℤ
deriving DecidableEq

structure Externals where
  start : ℤ
  corner : ℤ
  oob : ℤ
  competing : ℤ
  tenacious : ℤ
  spurt : ℤ
deriving DecidableEq

structure Horse where
  id : String
  name : String
  sex : String
  style : Style
  ac : ℤ
  internals : Internals
  externals : Externals
  ratingBase : Option ℚ
deriving DecidableEq

/-- src/schedule.py `RaceMeta` (fields used by the core). -/
structure RaceMeta where
  roundNum : ℕ
  slot : Slot
  track : String
  distance : ℤ
  winnerPurse : ℤ
  courseCode : String
  surface : Surface
deriving DecidableEq

/-! ## Deterministic RNG model (src/rng.py)

`hash64(*parts)` hashes the `"\x1f"`-separated utf-8 of `str(p)` for each
part with blake2b-8; `RNG(seed)` wraps `random.Random(seed)`.  Both are
pure: the embedding abstracts them as the components of a `RandModel`, and
an `RNG` instance as its seed plus the number of `random()` draws consumed
so far. -/

structure RandModel where
  h64 : List String → ℕ
  rand : ℕ → ℕ → ℚ
  shuffleStr : ℕ → List String → List String

/-- State of one `RNG` instance: the seed it was constructed with and how
many `random()` outputs it has consumed. -/
structure RState where
  seed : ℕ
  k : ℕ
deriving DecidableEq

/-- One `rng.random()` call. -/
def RandModel.draw (M : RandModel) (s : RState) : ℚ × RState :=
  (M.rand s.seed s.k, ⟨s.seed, s.k + 1⟩)

/-- A model is uniform-valid when every `random()` output lies in `[0,1)`,
as Python guarantees. -/
def RandModel.Uniform (M : RandModel) : Prop :=
  ∀ s k, 0 ≤ M.rand s k ∧ M.rand s k < 1

/-- `rng.tri_centered()`: `random()+random()+random() - 1.5`. -/
def triCentered (M : RandModel) (s : RState) : ℚ × RState :=
  let (a, s1) := M.draw s
  let (b, s2) := M.draw s1
  let (c, s3) := M.draw s2
  (a + b + c - 3/2, s3)

/-! ## Python numeric helpers -/

/-- Python `int(x)`: truncation toward zero. -/
def pyInt (q : ℚ) : ℤ :=
  if 0 ≤ q then ⌊q⌋ else -⌊-q⌋

/-- Python `int(x)` on a real value. -/
noncomputable def pyIntR (x : ℝ) : ℤ :=
  if 0 ≤ x then ⌊x⌋ else -⌊-x⌋

/-- Python `round(x)` (round half to even). -/
def pyRound (q : ℚ) : ℤ :=
  let f := ⌊q⌋
  let r := q - f
  if r < 1/2 then f
  else if 1/2 < r then f + 1
  else if Even f then f else f + 1

/-- src/breeding.py `clamp_int`. -/
def clamp_int (x lo hi : ℤ) : ℤ :=
  if x < lo then lo else if hi < x then hi else x

/-- src/race_engine.py `_clamp` on rationals. -/
def clampQ (x lo hi : ℚ) : ℚ :=
  if x < lo then lo else if hi < x then hi else x

/-- src/race_engine.py `_clamp` on reals. -/
noncomputable def clampR (x lo hi : ℝ) : ℝ :=
  if x < lo then lo else if hi < x then hi else x

theorem clamp_int_mem (x lo hi : ℤ) (h : lo ≤ hi) :
    lo ≤ clamp_int x lo hi ∧ clamp_int x lo hi ≤ hi := by
  unfold clamp_int
  split
  · exact ⟨le_refl _, h⟩
  · split
    · exact ⟨h, le_refl _⟩
    · omega

/-! ## Genetic generator (src/breeding.py)

`compute_birth_ext_8_48_from_parents(sire, dam, rng, cap_sum,
genetic_tokens_sire, genetic_tokens_dam)` draws six externals in `[8,48]`
and then enforces the (token-adjusted) sum cap, first proportionally for up
to 20 iterations, then by greedy decrements of the largest stat. -/

/-- The six external stat keys, in the tuple order of the source. -/
inductive ExtKey
  | start
  | corner
  | oob
  | competing
  | tenacious
  | spurt
deriving DecidableEq

def extKeys : List ExtKey :=
  [.start, .corner, .oob, .competing, .tenacious, .spurt]

/-- A breeding-input parent record: internals, surface affinity and the six
externals on the 0..16 pedigree scale (src/breeding.py `safe_get` fields). -/
structure ParentRec where
  stamina : ℤ
  speed : ℤ
  sharp : ℤ
  ac : ℤ
  start : ℤ
  corner : ℤ
  oob : ℤ
  competing : ℤ
  tenacious : ℤ
  spurt : ℤ
deriving DecidableEq

def ParentRec.getExt (p : ParentRec) : ExtKey → ℤ
  | .start => p.start
  | .corner => p.corner
  | .oob => p.oob
  | .competing => p.competing
  | .tenacious => p.tenacious
  | .spurt => p.spurt

/-- MIN_V and MAX_V from src/breeding.py. -/
def MIN_V : ℤ := 8

def MAX_V : ℤ := 48

/-- Token-adjusted sum cap: `cap_sum = min(180, cap_sum + min(4*t_total, 20))`
with `t_total = max(0, tokens_sire + tokens_dam)`. -/
def capAdjusted (cap_sum tok_sire tok_dam : ℤ) : ℤ :=
  let t_total := max 0 (tok_sire + tok_dam)
  min 180 (cap_sum + min (4 * t_total) 20)

/-- Raw (pre-cap) generation of one external stat.  Mirrors the body of the
`for k in keys` loop: parent average normalized into `[0,1]`, token shift,
power `gamma = 1.6`, map into `[8,48]`, triangular noise, low-probability
anomaly, truncate to int, clamp to `[8,48]`.  Consumes the rng draws of one
iteration and returns the updated rng state. -/
noncomputable def birthExtOne (M : RandModel) (sire dam : ParentRec)
    (n_shift : ℚ) (t_total : ℤ) (k : ExtKey) (s : RState) : ℤ × RState :=
  let gamma : ℝ := 1.6
  let sd_base : ℚ := 2.2
  let anom_p : ℚ := 0.035
  let anom_mag : ℚ := 14.0
  let a0 := clamp_int (sire.getExt k) 0 16
  let b0 := clamp_int (dam.getExt k) 0 16
  let denom : ℚ := if a0 = 16 ∨ b0 = 16 then 16 else 15
  let n : ℚ := (((a0 : ℚ) + (b0 : ℚ)) / 2) / denom
  let n : ℚ := max 0 (min 1 (n + n_shift))
  let expected : ℝ := (MIN_V : ℝ) + ((MAX_V : ℝ) - (MIN_V : ℝ)) * (n : ℝ) ^ gamma
  let (tri, s1) := triCentered M s
  let noise : ℚ := tri * sd_base * 2.0
  let (r, s2) := M.draw s1
  let (noise, s3) :=
    if r < anom_p then
      let p_pos : ℚ := min 0.70 (0.50 + 0.05 * (t_total : ℚ))
      let (rs, s2a) := M.draw s2
      let sign : ℚ := if rs < p_pos then 1.0 else -1.0
      let (rm, s2b) := M.draw s2a
      (noise + sign * (rm * anom_mag), s2b)
    else (noise, s2)
  let v : ℤ := pyIntR (expected + (noise : ℝ))
  (clamp_int v MIN_V MAX_V, s3)

/-- The six raw externals, generated key by key in tuple order, threading
the rng state. -/
noncomputable def birthExtRaw (M : RandModel) (sire dam : ParentRec)
    (n_shift : ℚ) (t_total : ℤ) : List ExtKey → RState → (ExtKey → ℤ) → (ExtKey → ℤ) × RState
  | [], s, out => (out, s)
  | k :: ks, s, out =>
      let (v, s') := birthExtOne M sire dam n_shift t_total k s
      birthExtRaw M sire dam n_shift t_total ks s' (Function.update out k v)

/-- `sum(d[k] for k in keys)`. -/
def sumExt (out : ExtKey → ℤ) : ℤ :=
  (extKeys.map out).sum

/-- One iteration of the proportional cap-reduction loop: compute the
excess and the per-key "room" above the floor, then cut each reducible key
proportionally (rounded), never below the floor.  The source precomputes
`reducibles` (keys and rooms) before mutating, so a simultaneous update is
exact. -/
def propIter (cap_sum : ℤ) (out : ExtKey → ℤ) : ExtKey → ℤ :=
  let s := sumExt out
  let excess := s - cap_sum
  let reducibles := extKeys.filter (fun k => MIN_V < out k)
  let total_room := (reducibles.map (fun k => out k - MIN_V)).sum
  fun k =>
    if k ∈ reducibles then
      let cut := pyRound ((excess : ℚ) * (((out k - MIN_V : ℤ) : ℚ) / (total_room : ℚ)))
      if cut ≤ 0 then out k else max MIN_V (out k - cut)
    else out k

/-- The `for _ in range(20)` proportional loop with its two break
conditions (`s <= cap_sum` and `total_room <= 0`). -/
def propLoop (cap_sum : ℤ) : ℕ → (ExtKey → ℤ) → (ExtKey → ℤ)
  | 0, out => out
  | n + 1, out =>
      let s := sumExt out
      if s ≤ cap_sum then out
      else
        let reducibles := extKeys.filter (fun k => MIN_V < out k)
        let total_room := (reducibles.map (fun k => out k - MIN_V)).sum
        if total_room ≤ 0 then out
        else propLoop cap_sum n (propIter cap_sum out)

/-- Python `max(keys, key=lambda kk: out[kk])`: the first key (in `keys`
order) attaining the maximal value. -/
def maxKey (out : ExtKey → ℤ) : ExtKey :=
  extKeys.foldl (fun acc k => if out acc < out k then k else acc) .start

/-- The greedy `while sum_ext(out) > cap_sum` loop, decrementing the
largest stat, with the `out[kmax] <= MIN_V` break.  Each productive
iteration lowers the sum by exactly 1, so `fuel` at least
`sum_ext(out) - cap_sum` reproduces the unbounded loop. -/
def greedyLoop (cap_sum : ℤ) : ℕ → (ExtKey → ℤ) → (ExtKey → ℤ)
  | 0, out => out
  | n + 1, out =>
      if sumExt out ≤ cap_sum then out
      else
        let kmax := maxKey out
        if out kmax ≤ MIN_V then out
        else greedyLoop cap_sum n (Function.update out kmax (out kmax - 1))

/-- `compute_birth_ext_8_48_from_parents`: raw generation followed by the
proportional then greedy cap enforcement.  Returns the six externals and
the updated rng state. -/
noncomputable def compute_birth_ext_8_48_from_parents (M : RandModel)
    (sire dam : ParentRec) (s : RState) (cap_sum tok_sire tok_dam : ℤ) :
    (ExtKey → ℤ) × RState :=
  let t_total : ℤ := max 0 (tok_sire + tok_dam)
  let n_shift : ℚ := 0.03 * (max 0 (min t_total 6) : ℤ)
  let cap := capAdjusted cap_sum tok_sire tok_dam
  let rawPair := birthExtRaw M sire dam n_shift t_total extKeys s (fun _ => 0)
  let afterProp := propLoop cap 20 rawPair.1
  (greedyLoop cap (sumExt afterProp - cap).toNat afterProp, rawPair.2)

/-! ### Cap-enforcement invariants -/

theorem extKeys_complete (k : ExtKey) : k ∈ extKeys := by
  cases k <;> simp [extKeys]

theorem extKeys_nodup : extKeys.Nodup := by decide

/-- Updating a single key shifts the six-key sum by the difference at that
key. -/
theorem sumExt_update (out : ExtKey → ℤ) (k : ExtKey) (v : ℤ) :
    sumExt (Function.update out k v) = sumExt out + v - out k := by
  cases k <;> simp [sumExt, extKeys, Function.update] <;> ring

/-- Fuel-faithfulness of the greedy loop: any fuel of at least
`sum - cap` steps gives the same result as more fuel, so the fuel choice
in `compute_birth_ext_8_48_from_parents` reproduces the unbounded
`while` loop of the source. -/
theorem greedyLoop_fuel (cap_sum : ℤ) :
    ∀ (n : ℕ) (out : ExtKey → ℤ), sumExt out - cap_sum ≤ (n : ℤ) →
      greedyLoop cap_sum n out = greedyLoop cap_sum (n + 1) out := by
  intro n
  induction n with
  | zero =>
      intro out h
      simp only [greedyLoop]
      rw [if_pos (by omega)]
  | succ m ih =>
      intro out h
      by_cases hs : sumExt out ≤ cap_sum
      · conv_lhs => rw [greedyLoop]
        conv_rhs => rw [greedyLoop]
        rw [if_pos hs, if_pos hs]
      · by_cases hk : out (maxKey out) ≤ MIN_V
        · conv_lhs => rw [greedyLoop]
          conv_rhs => rw [greedyLoop]
          rw [if_neg hs, if_neg hs]
          simp only []
          rw [if_pos hk, if_pos hk]
        · have hsum : sumExt (Function.update out (maxKey out) (out (maxKey out) - 1))
              = sumExt out - 1 := by
            have := sumExt_update out (maxKey out) (out (maxKey out) - 1)
            omega
          conv_lhs => rw [greedyLoop]
          conv_rhs => rw [greedyLoop]
          rw [if_neg hs, if_neg hs]
          simp only []
          rw [if_neg hk, if_neg hk]
          exact ih _ (by omega)

/-- The raw per-key value is clamped into `[8,48]`. -/
theorem birthExtOne_bounds (M : RandModel) (sire dam : ParentRec)
    (n_shift : ℚ) (t_total : ℤ) (k : ExtKey) (s : RState) :
    MIN_V ≤ (birthExtOne M sire dam n_shift t_total k s).1 ∧
      (birthExtOne M sire dam n_shift t_total k s).1 ≤ MAX_V := by
  unfold birthExtOne
  simp only []
  exact clamp_int_mem _ MIN_V MAX_V (by decide)

/-- After the raw generation pass, every key that was processed (or was
already in bounds) is in `[8,48]`. -/
theorem birthExtRaw_bounds (M : RandModel) (sire dam : ParentRec)
    (n_shift : ℚ) (t_total : ℤ) :
    ∀ (ks : List ExtKey) (s : RState) (out : ExtKey → ℤ) (k : ExtKey),
      (k ∈ ks ∨ (MIN_V ≤ out k ∧ out k ≤ MAX_V)) →
      MIN_V ≤ (birthExtRaw M sire dam n_shift t_total ks s out).1 k ∧
        (birthExtRaw M sire dam n_shift t_total ks s out).1 k ≤ MAX_V := by
  intro ks
  induction ks with
  | nil =>
      intro s out k hk
      rcases hk with h | h
      · cases h
      · simpa [birthExtRaw] using h
  | cons k0 ks ih =>
      intro s out k hk
      rw [birthExtRaw]
      rcases hk with h | h
      · rcases List.mem_cons.mp h with rfl | hmem
        · by_cases htail : k ∈ ks
          · exact ih _ _ _ (Or.inl htail)
          · refine ih _ _ _ (Or.inr ?_)
            rw [Function.update_same]
            exact birthExtOne_bounds M sire dam n_shift t_total k s
        · exact ih _ _ _ (Or.inl hmem)
      · by_cases hk0 : k = k0
        · subst hk0
          refine ih _ _ _ (Or.inr ?_)
          rw [Function.update_same]
          exact birthExtOne_bounds M sire dam n_shift t_total k s
        · refine ih _ _ _ (Or.inr ?_)
          rw [Function.update_noteq hk0]
          exact h

/-- One proportional iteration keeps every stat within `[8,48]`. -/
theorem propIter_bounds (cap_sum : ℤ) (out : ExtKey → ℤ)
    (h : ∀ k, MIN_V ≤ out k ∧ out k ≤ MAX_V) :
    ∀ k, MIN_V ≤ propIter cap_sum out k ∧ propIter cap_sum out k ≤ MAX_V := by
  intro k
  unfold propIter
  simp only []
  split
  · split
    · exact h k
    · constructor
      · exact le_max_left _ _
      · have := (h k).2
        have := (h k).1
        omega
  · exact h k

/-- The 20-iteration proportional loop keeps every stat within `[8,48]`. -/
theorem propLoop_bounds (cap_sum : ℤ) :
    ∀ (n : ℕ) (out : ExtKey → ℤ),
      (∀ k, MIN_V ≤ out k ∧ out k ≤ MAX_V) →
      ∀ k, MIN_V ≤ propLoop cap_sum n out k ∧ propLoop cap_sum n out k ≤ MAX_V := by
  intro n
  induction n with
  | zero => intro out h k; simpa [propLoop] using h k
  | succ m ih =>
      intro out h k
      rw [propLoop]
      split
      · exact h k
      · simp only []
        split
        · exact h k
        · exact ih _ (propIter_bounds cap_sum out h) k

/-- The greedy loop keeps every stat within `[8,48]`. -/
theorem greedyLoop_bounds (cap_sum : ℤ) :
    ∀ (n : ℕ) (out : ExtKey → ℤ),
      (∀ k, MIN_V ≤ out k ∧ out k ≤ MAX_V) →
      ∀ k, MIN_V ≤ greedyLoop cap_sum n out k ∧ greedyLoop cap_sum n out k ≤ MAX_V := by
  intro n
  induction n with
  | zero => intro out h k; simpa [greedyLoop] using h k
  | succ m ih =>
      intro out h k
      rw [greedyLoop]
      split
      · exact h k
      · simp only []
        split
        · exact h k
        · rename_i hs hk
          refine ih _ ?_ k
          intro k'
          rcases eq_or_ne k' (maxKey out) with rfl | hne
          · rw [Function.update_same]
            have h1 := (h (maxKey out)).1
            have h2 := (h (maxKey out)).2
            omega
          · rw [Function.update_noteq hne]
            exact h k'

/-- `maxKey` attains the maximum over all six keys. -/
theorem maxKey_attains (out : ExtKey → ℤ) (k : ExtKey) : out k ≤ out (maxKey out) := by
  have main : ∀ (l : List ExtKey) (acc : ExtKey),
      out acc ≤ out (l.foldl (fun acc k => if out acc < out k then k else acc) acc) ∧
      ∀ k' ∈ l, out k' ≤ out (l.foldl (fun acc k => if out acc < out k then k else acc) acc) := by
    intro l
    induction l with
    | nil => intro acc; exact ⟨le_refl _, by simp⟩
    | cons x xs ih =>
        intro acc
        simp only [List.foldl_cons]
        by_cases hx : out acc < out x
        · rw [if_pos hx]
          refine ⟨le_trans (le_of_lt hx) (ih x).1, ?_⟩
          intro k' hk'
          rcases List.mem_cons.mp hk' with rfl | hmem
          · exact (ih k').1
          · exact (ih x).2 k' hmem
        · rw [if_neg hx]
          refine ⟨(ih acc).1, ?_⟩
          intro k' hk'
          rcases List.mem_cons.mp hk' with rfl | hmem
          · exact le_trans (not_lt.mp hx) (ih acc).1
          · exact (ih acc).2 k' hmem
  exact (main extKeys .start).2 k (extKeys_complete k)

/-- All six stats at the floor give the minimal sum 48. -/
theorem sumExt_all_floor (out : ExtKey → ℤ) (h : ∀ k, out k = MIN_V) :
    sumExt out = 48 := by
  simp [sumExt, extKeys, h .start, h .corner, h .oob, h .competing, h .tenacious, h .spurt]
  decide

/-- With enough fuel and a cap of at least the floor sum 48, the greedy
loop lands at or below the cap. -/
theorem greedyLoop_cap (cap_sum : ℤ) (hcap : 48 ≤ cap_sum) :
    ∀ (n : ℕ) (out : ExtKey → ℤ),
      (∀ k, MIN_V ≤ out k ∧ out k ≤ MAX_V) →
      sumExt out - cap_sum ≤ (n : ℤ) →
      sumExt (greedyLoop cap_sum n out) ≤ cap_sum := by
  intro n
  induction n with
  | zero =>
      intro out _ hfuel
      rw [greedyLoop]
      omega
  | succ m ih =>
      intro out hb hfuel
      rw [greedyLoop]
      split
      · assumption
      · rename_i hs
        simp only []
        split
        · rename_i hk
          exfalso
          have hall : ∀ k, out k = MIN_V := by
            intro k
            have h1 := (hb k).1
            have h2 := maxKey_attains out k
            omega
          have := sumExt_all_floor out hall
          omega
        · rename_i hk
          have hupd : sumExt (Function.update out (maxKey out) (out (maxKey out) - 1))
              = sumExt out - 1 := by
            have := sumExt_update out (maxKey out) (out (maxKey out) - 1)
            omega
          refine ih _ ?_ (by omega)
          intro k'
          rcases eq_or_ne k' (maxKey out) with rfl | hne
          · rw [Function.update_same]
            have h1 := (hb (maxKey out)).1
            have h2 := (hb (maxKey out)).2
            omega
          · rw [Function.update_noteq hne]
            exact hb k'

/-! ### Claim theorems for breeding (C3, C4) -/

/-- A fully concrete random model: zero hash, all `random()` draws 0,
identity shuffle (the identity permutation is one possible shuffle
outcome). -/
def Mzero : RandModel :=
  ⟨fun _ => 0, fun _ _ => 0, fun _ l => l⟩

/-- A parent record with every attribute 0. -/
def parentZero : ParentRec :=
  ⟨0, 0, 0, 0, 0, 0, 0, 0, 0, 0⟩

/-- C4: for every breeding call (any parents, any rng draws, any cap and
token counts), each of the six output external stats lies in `[8,48]`. -/
theorem birth_ext_in_range (M : RandModel) (sire dam : ParentRec) (s : RState)
    (cap_sum tok_sire tok_dam : ℤ) (k : ExtKey) :
    8 ≤ (compute_birth_ext_8_48_from_parents M sire dam s cap_sum tok_sire tok_dam).1 k ∧
      (compute_birth_ext_8_48_from_parents M sire dam s cap_sum tok_sire tok_dam).1 k ≤ 48 := by
  unfold compute_birth_ext_8_48_from_parents
  simp only []
  exact greedyLoop_bounds _ _ _
    (propLoop_bounds _ _ _
      (fun k' => birthExtRaw_bounds M sire dam _ _ extKeys s (fun _ => 0) k'
        (Or.inl (extKeys_complete k')))) k

/-- C3 (amended): whenever the token-adjusted cap is at least 48 (the sum
of the six floors, which is the least value any output sum can take), the
output externals sum to at most the token-adjusted cap, and no stat is
ever driven below the floor 8. -/
theorem birth_ext_cap_of_floor_le_cap (M : RandModel) (sire dam : ParentRec)
    (s : RState) (cap_sum tok_sire tok_dam : ℤ)
    (hcap : 48 ≤ capAdjusted cap_sum tok_sire tok_dam) :
    sumExt (compute_birth_ext_8_48_from_parents M sire dam s cap_sum tok_sire tok_dam).1 ≤
        capAdjusted cap_sum tok_sire tok_dam ∧
      ∀ k, 8 ≤ (compute_birth_ext_8_48_from_parents M sire dam s cap_sum tok_sire tok_dam).1 k := by
  constructor
  · unfold compute_birth_ext_8_48_from_parents
    simp only []
    refine greedyLoop_cap _ hcap _ _ ?_ (Int.self_le_toNat _)
    exact propLoop_bounds _ _ _
      (fun k' => birthExtRaw_bounds M sire dam _ _ extKeys s (fun _ => 0) k'
        (Or.inl (extKeys_complete k')))
  · intro k
    exact (birth_ext_in_range M sire dam s cap_sum tok_sire tok_dam k).1

/-- Witness for C3 (amended) at the default cap 160 and zero tokens. -/
theorem birth_ext_cap_witness :
    48 ≤ capAdjusted 160 0 0 ∧
      (sumExt (compute_birth_ext_8_48_from_parents Mzero parentZero parentZero
            ⟨0, 0⟩ 160 0 0).1 ≤ capAdjusted 160 0 0 ∧
        ∀ k, 8 ≤ (compute_birth_ext_8_48_from_parents Mzero parentZero parentZero
            ⟨0, 0⟩ 160 0 0).1 k) :=
  ⟨by decide,
    birth_ext_cap_of_floor_le_cap Mzero parentZero parentZero ⟨0, 0⟩ 160 0 0 (by decide)⟩

/-- Evaluation of one raw external for the all-zero parents under the
all-zero draw model: the parent average normalizes to 0, the expected
value is the floor 8, the triangular noise is `-1.5 * 2.2 * 2 = -6.6`, the
anomaly branch triggers (0 < 0.035) and contributes `+1 * (0 * 14) = 0`,
so `int(8 - 6.6) = 1` clamps up to the floor 8, after 6 draws. -/
theorem birthExtOne_Mzero (k : ExtKey) (s : RState) :
    birthExtOne Mzero parentZero parentZero 0 0 k s = (8, ⟨s.seed, s.k + 6⟩) := by
  have hpow : ((max (0:ℚ) (min 1 ((((0:ℚ) + (0:ℚ)) / 2) / 15 + 0)) : ℚ) : ℝ) ^ (1.6 : ℝ) = 0 := by
    norm_num
  cases k <;>
    simp [birthExtOne, triCentered, RandModel.draw, Mzero, parentZero, ParentRec.getExt,
      clamp_int, MIN_V, MAX_V, hpow, pyIntR] <;>
    (try norm_num [Int.floor_eq_iff])

/-- All six raw externals come out at the floor 8 in the
all-zero-parents, all-zero-draws scenario. -/
theorem birthExtRaw_Mzero :
    (birthExtRaw Mzero parentZero parentZero 0 0 extKeys ⟨0, 0⟩ (fun _ => 0)).1 =
      fun _ => (8 : ℤ) := by
  funext k
  simp only [extKeys, birthExtRaw, birthExtOne_Mzero]
  cases k <;> simp [Function.update]

/-- C3, counterexample: with a sum cap below the floor sum 48 (here the
concrete cap 0 with zero tokens), the output sum 48 exceeds the
token-adjusted cap: the greedy phase stops at the floors without reaching
the cap, so "sum(externals) ≤ cap (token-adjusted)" fails as a statement
about every cap. -/
theorem birth_ext_cap_cex :
    ¬ (sumExt (compute_birth_ext_8_48_from_parents Mzero parentZero parentZero
          ⟨0, 0⟩ 0 0 0).1 ≤ capAdjusted 0 0 0) := by
  unfold compute_birth_ext_8_48_from_parents
  simp only []
  have harg : (0.03 : ℚ) * ((max 0 (min (max 0 ((0:ℤ) + 0)) 6) : ℤ) : ℚ) = 0 := by norm_num
  rw [harg]
  have harg2 : max (0:ℤ) ((0:ℤ) + 0) = 0 := by decide
  rw [harg2, birthExtRaw_Mzero]
  decide

/-! ## Strength rating (src/rating.py) -/

/-- `ext_sum(h)`: sum of the six externals. -/
def ext_sum (h : Horse) : ℤ :=
  h.externals.start + h.externals.corner + h.externals.oob +
    h.externals.competing + h.externals.tenacious + h.externals.spurt

/-- `int_sum(h)`: sum of the three internals. -/
def int_sum (h : Horse) : ℤ :=
  h.internals.stamina + h.internals.speed + h.internals.sharp

/-- Pool mean of internal sums, with the `max(1, len(vals))` guard. -/
def pool_int_mu (horses : List Horse) : ℚ :=
  ((horses.map int_sum).map (Int.cast : ℤ → ℚ)).sum / (max 1 horses.length : ℕ)

/-- Pool variance of internal sums, with the `max(1, len(vals))` guard. -/
def pool_int_var (horses : List Horse) : ℚ :=
  ((horses.map int_sum).map
      (fun v => ((v : ℚ) - pool_int_mu horses) ^ 2)).sum / (max 1 horses.length : ℕ)

/-- Pool standard deviation: `sqrt(var) if var > 1e-9 else 1.0`
(the degenerate-population floor of `compute_pool_int_stats`). -/
noncomputable def pool_int_sd (horses : List Horse) : ℝ :=
  if pool_int_var horses > 1e-9 then Real.sqrt (pool_int_var horses) else 1.0

/-- `compute_rating(h, pool_int_mean, pool_int_sd)`. -/
noncomputable def compute_rating (h : Horse) (pool_int_mean pool_int_sd : ℝ) : ℝ :=
  let en := ((ext_sum h : ℝ) - 48) / (288 - 48) * 100.0
  let z := ((int_sum h : ℝ) - pool_int_mean) / pool_int_sd
  let inn := z * 15.0 + 50.0
  0.55 * en + 0.45 * inn

/-- C8: for every population — including the empty population, singletons
and populations whose internal sums are all equal — the standard deviation
returned by `compute_pool_int_stats` is strictly positive, so the z-score
division in `compute_rating` is never a division by zero. -/
theorem pool_int_sd_pos (horses : List Horse) : 0 < pool_int_sd horses := by
  unfold pool_int_sd
  split
  · rename_i h
    refine Real.sqrt_pos.mpr ?_
    have hq : (0 : ℚ) < pool_int_var horses := lt_trans (by norm_num) h
    exact_mod_cast hq
  · norm_num

/-! ## Round pool and field selection (src/cpu_pool.py) -/

/-- Percentile bands per race slot. -/
def BANDS : Slot → ℚ × ℚ
  | .R1 => (0.20, 0.80)
  | .R2 => (0.25, 0.85)
  | .R3 => (0.50, 0.95)
  | .R4 => (0.30, 0.85)
  | .R5 => (0.40, 0.90)
  | .G1 => (0.65, 1.00)

/-- src/cpu_pool.py `RoundPool`.  The Python per-slot `set` of used ids is
a `Finset`. -/
structure RoundPool where
  round_num : ℕ
  seed : ℕ
  horses : List Horse
  sorted_ids : List String
  used_by_slot : Slot → Finset String

/-- The percentile window slice `ids[lo:hi+1]` of `select_cpu_field`
(before shuffling): band bounds shifted by `band_shift`, clamped to
`[0,1]` with `hi` floored at `lo`. -/
def fieldWindow (pool : RoundPool) (slot : Slot) (band_shift : ℚ) : List String :=
  let lo_p : ℚ := max 0 (min 1 ((BANDS slot).1 + band_shift))
  let hi_p0 : ℚ := max 0 (min 1 ((BANDS slot).2 + band_shift))
  let hi_p : ℚ := if hi_p0 < lo_p then lo_p else hi_p0
  let ids := pool.sorted_ids
  let n := ids.length
  let lo : ℤ := pyInt ((n : ℚ) * lo_p)
  let hi : ℤ := max lo (pyInt ((n : ℚ) * hi_p) - 1)
  (ids.drop lo.toNat).take (hi + 1 - lo).toNat

/-- First selection pass: walk the shuffled candidates, taking ids not in
the used set, stopping as soon as `field_size` ids are chosen. -/
def fillLoop1 (used : Finset String) (field_size : ℕ) :
    List String → List String → List String
  | [], chosen => chosen
  | hid :: rest, chosen =>
      let chosen' := if hid ∈ used then chosen else chosen ++ [hid]
      if chosen'.length = field_size then chosen'
      else fillLoop1 used field_size rest chosen'

/-- Fallback pass (only entered when the first pass came up short): allow
previously-used candidates, skipping ids already chosen. -/
def fillLoop2 (field_size : ℕ) :
    List String → List String → List String
  | [], chosen => chosen
  | hid :: rest, chosen =>
      let chosen' := if hid ∈ chosen then chosen else chosen ++ [hid]
      if chosen'.length = field_size then chosen'
      else fillLoop2 field_size rest chosen'

/-- The two selection passes of `select_cpu_field`: unused candidates
first, then (only if short) previously-used candidates. -/
def chooseIds (used : Finset String) (field_size : ℕ) (cands : List String) :
    List String :=
  let chosen1 := fillLoop1 used field_size cands []
  if chosen1.length < field_size then fillLoop2 field_size cands chosen1
  else chosen1

/-- src/cpu_pool.py `select_cpu_field`: shuffle the percentile window with
a disposable rng, fill from unused ids first, fall back to used ids, mark
the chosen ids used for this slot, and map ids back to horses. -/
def select_cpu_field (M : RandModel) (global_seed : ℕ) (pool : RoundPool)
    (slot : Slot) (meet_iteration : ℕ) (field_size : ℕ) (band_shift : ℚ) :
    List Horse × RoundPool :=
  let shuffSeed := M.h64 [toString global_seed, "FIELD", toString pool.round_num,
    slotStr slot, toString meet_iteration]
  let candidates := M.shuffleStr shuffSeed (fieldWindow pool slot band_shift)
  let used := pool.used_by_slot slot
  let chosen := chooseIds used field_size candidates
  let pool' : RoundPool :=
    { pool with
      used_by_slot := fun s => if s = slot then used ∪ chosen.toFinset
        else pool.used_by_slot s }
  (chosen.filterMap (fun i => pool.horses.find? (fun h => h.id == i)), pool')

/-- C9: a field-selection call changes nothing in the pool except the
used-id set of the slot being selected for: horses (hence their stats and
ratings), the rating-sorted id list, the round number, the seed and every
other slot's used-id set are all unchanged. -/
theorem select_cpu_field_frame (M : RandModel) (global_seed : ℕ)
    (pool : RoundPool) (slot : Slot) (meet_iteration field_size : ℕ)
    (band_shift : ℚ) :
    (select_cpu_field M global_seed pool slot meet_iteration field_size band_shift).2.horses
        = pool.horses ∧
      (select_cpu_field M global_seed pool slot meet_iteration field_size band_shift).2.sorted_ids
        = pool.sorted_ids ∧
      (select_cpu_field M global_seed pool slot meet_iteration field_size band_shift).2.round_num
        = pool.round_num ∧
      (select_cpu_field M global_seed pool slot meet_iteration field_size band_shift).2.seed
        = pool.seed ∧
      ∀ s : Slot, s ≠ slot →
        (select_cpu_field M global_seed pool slot meet_iteration field_size band_shift).2.used_by_slot s
          = pool.used_by_slot s := by
  refine ⟨rfl, rfl, rfl, rfl, ?_⟩
  intro s hs
  show (if s = slot then _ else pool.used_by_slot s) = pool.used_by_slot s
  rw [if_neg hs]

/-- A tiny concrete horse for counterexamples and witnesses. -/
def mkHorse (i : String) (v : ℤ) : Horse :=
  ⟨i, i, "M", .FR, 0, ⟨v, v, v⟩, ⟨v, v, v, v, v, v⟩, none⟩

/-- A concrete four-horse round pool with no used ids. -/
def poolFour : RoundPool :=
  ⟨1, 0, [mkHorse "A" 10, mkHorse "B" 11, mkHorse "C" 12, mkHorse "D" 13],
    ["A", "B", "C", "D"], fun _ => ∅⟩

/-- Witness for C9: concrete call on `poolFour`; the 1R used-id set is
untouched by a G1 selection. -/
theorem select_cpu_field_frame_witness :
    Slot.R1 ≠ Slot.G1 ∧
      (select_cpu_field Mzero 0 poolFour .G1 0 11 0).2.used_by_slot .R1
        = poolFour.used_by_slot .R1 :=
  ⟨by decide,
    (select_cpu_field_frame Mzero 0 poolFour .G1 0 11 0).2.2.2.2 .R1 (by decide)⟩

/-- The G1 window of the four-horse pool: `lo = int(4*0.65) = 2`,
`hi = max(2, int(4*1.0)-1) = 3`, so `ids[2:4] = ["C","D"]`. -/
theorem fieldWindow_poolFour : fieldWindow poolFour .G1 0 = ["C", "D"] := by
  have h26 : pyInt ((13:ℚ)/5) = 2 := by
    unfold pyInt
    rw [if_pos (by norm_num)]
    norm_num [Int.floor_eq_iff]
  have h4 : pyInt ((4:ℚ)) = 4 := by
    unfold pyInt
    rw [if_pos (by norm_num)]
    norm_num [Int.floor_eq_iff]
  unfold fieldWindow BANDS poolFour
  norm_num [min_def, max_def]
  rw [h26, h4]
  decide

/-- C2, counterexample: for the four-horse pool, slot G1 (band
`[0.65, 1.00]`), no shift and `field_size = 3`, the window
`ids[2:4]` holds only 2 candidates and both passes only ever draw from the
window, so the returned field has 2 competitors, not 3 — for any shuffle
outcome, here the identity permutation. -/
theorem select_cpu_field_short_field_cex :
    (select_cpu_field Mzero 0 poolFour .G1 0 3 0).1.length ≠ 3 := by
  simp only [select_cpu_field, fieldWindow_poolFour]
  decide

/-- Closed form of the first pass: it collects, in order, the candidates
not in the used set, up to `field_size` of them. -/
theorem fillLoop1_eq (used : Finset String) (field_size : ℕ) :
    ∀ (cands chosen : List String), chosen.length < field_size →
      fillLoop1 used field_size cands chosen
        = chosen ++ (cands.filter (fun x => decide (x ∉ used))).take
            (field_size - chosen.length) := by
  intro cands
  induction cands with
  | nil => intro chosen _; simp [fillLoop1]
  | cons hid rest ih =>
      intro chosen h
      rw [fillLoop1]
      by_cases hmem : hid ∈ used
      · simp only [if_pos hmem, if_neg (Nat.ne_of_lt h)]
        rw [ih chosen h, List.filter_cons]
        simp [hmem]
      · simp only [if_neg hmem]
        by_cases hlen : (chosen ++ [hid]).length = field_size
        · rw [if_pos hlen, List.filter_cons]
          have hfs1 : field_size - chosen.length = 1 := by
            simp only [List.length_append, List.length_singleton] at hlen
            omega
          simp [hmem, hfs1]
        · rw [if_neg hlen]
          have hlt : (chosen ++ [hid]).length < field_size := by
            simp only [List.length_append, List.length_singleton] at hlen ⊢
            omega
          rw [ih _ hlt, List.filter_cons]
          have h2 : field_size - chosen.length = (field_size - (chosen ++ [hid]).length) + 1 := by
            simp only [List.length_append, List.length_singleton]
            omega
          simp only [hmem, decide_not, decide_eq_true_eq, if_neg, Bool.not_eq_true]
          rw [if_pos (by simp [hmem]), h2, List.take_succ_cons, List.append_assoc]
          rfl

/-- Closed form of the fallback pass on duplicate-free candidates: it
appends, in order, the candidates not already chosen, stopping at
`field_size`. -/
theorem fillLoop2_eq (field_size : ℕ) :
    ∀ (cands chosen : List String), cands.Nodup → chosen.length < field_size →
      fillLoop2 field_size cands chosen
        = chosen ++ (cands.filter (fun x => decide (x ∉ chosen))).take
            (field_size - chosen.length) := by
  intro cands
  induction cands with
  | nil => intro chosen _ _; simp [fillLoop2]
  | cons hid rest ih =>
      intro chosen hnd h
      have hndr : rest.Nodup := (List.nodup_cons.mp hnd).2
      have hhid : hid ∉ rest := (List.nodup_cons.mp hnd).1
      rw [fillLoop2]
      by_cases hmem : hid ∈ chosen
      · simp only [if_pos hmem, if_neg (Nat.ne_of_lt h)]
        rw [ih chosen hndr h, List.filter_cons]
        simp [hmem]
      · simp only [if_neg hmem]
        by_cases hlen : (chosen ++ [hid]).length = field_size
        · rw [if_pos hlen, List.filter_cons]
          have hfs1 : field_size - chosen.length = 1 := by
            simp only [List.length_append, List.length_singleton] at hlen
            omega
          simp [hmem, hfs1]
        · rw [if_neg hlen]
          have hlt : (chosen ++ [hid]).length < field_size := by
            simp only [List.length_append, List.length_singleton] at hlen ⊢
            omega
          rw [ih _ hndr hlt, List.filter_cons]
          have hfilt : rest.filter (fun x => decide (x ∉ chosen ++ [hid]))
              = rest.filter (fun x => decide (x ∉ chosen)) := by
            refine List.filter_congr ?_
            intro x hx
            have hxne : x ≠ hid := fun hh => hhid (hh ▸ hx)
            refine decide_eq_decide.mpr ?_
            simp [List.mem_append, hxne]
          rw [hfilt]
          have h2 : field_size - chosen.length = (field_size - (chosen ++ [hid]).length) + 1 := by
            simp only [List.length_append, List.length_singleton]
            omega
          rw [if_pos (by simp [hmem]), h2, List.take_succ_cons, List.append_assoc]
          rfl

/-- `filterMap` with a function that succeeds on every element preserves
length. -/
theorem length_filterMap_of_isSome {α β : Type} (f : α → Option β) :
    ∀ l : List α, (∀ x ∈ l, (f x).isSome) → (l.filterMap f).length = l.length := by
  intro l
  induction l with
  | nil => intro _; rfl
  | cons x rest ih =>
      intro h
      obtain ⟨y, hy⟩ := Option.isSome_iff_exists.mp (h x (List.mem_cons_self x rest))
      rw [List.filterMap_cons, hy]
      simp only [List.length_cons]
      rw [ih (fun z hz => h z (List.mem_cons_of_mem x hz))]

/-- Length of the combined selection: exactly `min field_size w` for a
duplicate-free candidate list of length `w`. -/
theorem chooseIds_length (used : Finset String) (field_size : ℕ) (W : List String)
    (hfs : 1 ≤ field_size) (hnd : W.Nodup) :
    (chooseIds used field_size W).length = min field_size W.length := by
  unfold chooseIds
  simp only []
  have h1 := fillLoop1_eq used field_size W [] (by simp only [List.length_nil]; omega)
  simp only [List.nil_append, List.length_nil, Nat.sub_zero] at h1
  have hlen1 : (fillLoop1 used field_size W []).length
      = min field_size (W.filter (fun x => decide (x ∉ used))).length := by
    rw [h1, List.length_take]
  have hFle : (W.filter (fun x => decide (x ∉ used))).length ≤ W.length :=
    List.length_filter_le _ _
  have hsplit : W.length = (W.filter (fun x => decide (x ∉ used))).length
      + (W.filter (fun x => decide (x ∈ used))).length := by
    have hbase := List.length_eq_length_filter_add (l := W) (fun x => decide (x ∉ used))
    have hnp : W.filter (fun x => !(decide (x ∉ used)))
        = W.filter (fun x => decide (x ∈ used)) := by
      refine List.filter_congr ?_
      intro x _
      simp [decide_not]
    simpa [hnp] using hbase
  by_cases hc : (fillLoop1 used field_size W []).length < field_size
  · rw [if_pos hc]
    have hFlt : (W.filter (fun x => decide (x ∉ used))).length < field_size := by
      rcases Nat.lt_or_ge (W.filter (fun x => decide (x ∉ used))).length field_size with hlt | hge
      · exact hlt
      · rw [hlen1] at hc; omega
    have hc1 : fillLoop1 used field_size W [] = W.filter (fun x => decide (x ∉ used)) := by
      rw [h1]
      exact List.take_of_length_le (le_of_lt hFlt)
    rw [fillLoop2_eq field_size W _ hnd hc, hc1]
    have hGeq : W.filter (fun x => decide (x ∉ W.filter (fun x => decide (x ∉ used))))
        = W.filter (fun x => decide (x ∈ used)) := by
      refine List.filter_congr ?_
      intro x hx
      refine decide_eq_decide.mpr ?_
      constructor
      · intro hnx
        by_contra hxu
        exact hnx (List.mem_filter.mpr ⟨hx, by simp [hxu]⟩)
      · intro hxu hmem
        have hx2 := (List.mem_filter.mp hmem).2
        simp only [decide_eq_true_eq] at hx2
        exact hx2 hxu
    rw [hGeq, List.length_append, List.length_take]
    omega
  · rw [if_neg hc]
    rw [hlen1] at hc ⊢
    omega

/-- Every chosen id comes from the candidate list. -/
theorem chooseIds_subset (used : Finset String) (field_size : ℕ) (W : List String)
    (hfs : 1 ≤ field_size) (hnd : W.Nodup) :
    ∀ x ∈ chooseIds used field_size W, x ∈ W := by
  intro x hx
  unfold chooseIds at hx
  simp only [] at hx
  rw [fillLoop1_eq used field_size W [] (by simp only [List.length_nil]; omega)] at hx
  simp only [List.nil_append, List.length_nil, Nat.sub_zero] at hx
  by_cases hc : ((W.filter (fun x => decide (x ∉ used))).take field_size).length < field_size
  · rw [if_pos hc, fillLoop2_eq field_size W _ hnd hc] at hx
    rcases List.mem_append.mp hx with h | h
    · exact (List.mem_filter.mp (List.take_subset _ _ h)).1
    · exact (List.mem_filter.mp (List.take_subset _ _ h)).1
  · rw [if_neg hc] at hx
    exact (List.mem_filter.mp (List.take_subset _ _ hx)).1

/-- C2 (amended): `select_cpu_field` returns exactly `min field_size w`
competitors, where `w` is the size of the shifted percentile window over
the sorted pool — exactly `field_size` whenever the window holds at least
`field_size` candidates, but strictly fewer when the window itself is
smaller than `field_size`.  Hypotheses: the shuffle permutes its input
(Python guarantee), at least one competitor is requested, the sorted id
list is duplicate-free, and every sorted id belongs to a pool horse (all
established by `build_round_pool`). -/
theorem select_cpu_field_length (M : RandModel) (global_seed : ℕ)
    (pool : RoundPool) (slot : Slot) (meet_iteration field_size : ℕ)
    (band_shift : ℚ)
    (hshuffle : ∀ s l, List.Perm (M.shuffleStr s l) l)
    (hfs : 1 ≤ field_size)
    (hnodup : pool.sorted_ids.Nodup)
    (hids : ∀ i ∈ pool.sorted_ids, ∃ h ∈ pool.horses, h.id = i) :
    (select_cpu_field M global_seed pool slot meet_iteration field_size band_shift).1.length
      = min field_size (fieldWindow pool slot band_shift).length := by
  have hwinsub : List.Sublist (fieldWindow pool slot band_shift) pool.sorted_ids := by
    unfold fieldWindow
    exact (List.take_sublist _ _).trans (List.drop_sublist _ _)
  have hwinnd : (fieldWindow pool slot band_shift).Nodup := hnodup.sublist hwinsub
  have hperm := hshuffle
    (M.h64 [toString global_seed, "FIELD", toString pool.round_num,
      slotStr slot, toString meet_iteration])
    (fieldWindow pool slot band_shift)
  have hWnd := hperm.nodup_iff.mpr hwinnd
  have hfind : ∀ i ∈ chooseIds (pool.used_by_slot slot) field_size
      (M.shuffleStr
        (M.h64 [toString global_seed, "FIELD", toString pool.round_num,
          slotStr slot, toString meet_iteration])
        (fieldWindow pool slot band_shift)),
      (pool.horses.find? (fun h => h.id == i)).isSome := by
    intro i hi
    have hiW := chooseIds_subset _ _ _ hfs hWnd i hi
    have hiwin := hperm.mem_iff.mp hiW
    obtain ⟨h, hh, hid⟩ := hids i (hwinsub.subset hiwin)
    exact List.find?_isSome.mpr ⟨h, hh, by simp [hid]⟩
  show ((chooseIds _ _ _).filterMap _).length = _
  rw [length_filterMap_of_isSome _ _ hfind,
    chooseIds_length _ _ _ hfs hWnd, hperm.length_eq]

/-- Witness for C2 (amended): slot 1R of the four-horse pool has window
`ids[0:3]` of size 3 ≥ field size 2, so exactly 2 competitors return. -/
theorem select_cpu_field_length_witness :
    1 ≤ 2 ∧
      (select_cpu_field Mzero 0 poolFour .R1 0 2 0).1.length
        = min 2 (fieldWindow poolFour .R1 0).length :=
  ⟨by decide,
    select_cpu_field_length Mzero 0 poolFour .R1 0 2 0
      (fun _ l => List.Perm.refl l) (by decide) (by decide) (by decide)⟩

/-! ## Race engine (src/race_engine.py) -/

/-- `distance_profile`: (sprint, mile, stayer) weights. -/
def distance_profile (distance_m : ℤ) : ℚ × ℚ × ℚ :=
  if distance_m ≤ 1400 then (0.75, 0.25, 0.0)
  else if distance_m ≤ 2000 then (0.30, 0.55, 0.15)
  else if distance_m ≤ 2600 then (0.15, 0.35, 0.50)
  else (0.05, 0.25, 0.70)

/-- `_ext_norm`: map externals 8..48 onto a 0..60 scale. -/
def _ext_norm (v : ℤ) : ℚ :=
  (clampQ (v : ℚ) 8.0 48.0 - 8.0) * 1.5

/-- `_condition_heaviness`. -/
def _condition_heaviness (cond : Condition) : ℚ :=
  match cond with
  | .GOOD => 0.0
  | .GOOD_TO_SOFT => 0.35
  | .SOFT => 0.70
  | .HEAVY => 1.0

/-- `_tri_noise(rng)`: `random() + random() - 1.0`, consuming two draws. -/
def _tri_noise (M : RandModel) (s : RState) : ℚ × RState :=
  let (a, s1) := M.draw s
  let (b, s2) := M.draw s1
  (a + b - 1.0, s2)

/-- `_gauss(rng, mu, sigma)`: Box-Muller with the `max(1e-12, u1)` log
guard, consuming two draws. -/
noncomputable def _gauss (M : RandModel) (s : RState) (mu sigma : ℝ) : ℝ × RState :=
  let (u1d, s1) := M.draw s
  let (u2, s2) := M.draw s1
  let u1 : ℚ := max 1e-12 u1d
  let z0 : ℝ := Real.sqrt (-2.0 * Real.log (u1 : ℚ)) * Real.cos (2.0 * Real.pi * (u2 : ℚ))
  (mu + sigma * z0, s2)

def _STYLE_EARLY_BONUS : Style → ℚ
  | .FR => 3.0
  | .SD => 2.0
  | .AL => 0.5
  | .LS => -0.5
  | .SR => -1.0

def _STYLE_MID_BONUS : Style → ℚ
  | .FR => 0.2
  | .SD => 0.4
  | .AL => 0.6
  | .LS => 0.2
  | .SR => 0.0

def _STYLE_LATE_BONUS : Style → ℚ
  | .FR => -1.0
  | .SD => -0.5
  | .AL => 0.5
  | .LS => 3.0
  | .SR => 2.0

def _STYLE_ENDURANCE : Style → ℚ
  | .FR => 1.00
  | .SD => 0.90
  | .AL => 0.75
  | .LS => 0.55
  | .SR => 0.45

/-- `_gate_ideal_pos`: 0 = rail, 1 = widest. -/
def _gate_ideal_pos (style : Style) : ℚ :=
  match style with
  | .FR => 0.22
  | .SD => 0.22
  | .AL => 0.50
  | .LS => 0.65
  | .SR => 0.75

/-- `_gate_penalty` (positive = bad). -/
def _gate_penalty (gate : ℤ) (n_runners : ℕ) (style : Style) (surface : Surface)
    (sprint mile stayer break_skill : ℚ) : ℚ :=
  if n_runners ≤ 1 then 0.0
  else
    let gate_pos := clampQ (((gate : ℚ) - 1) / ((n_runners : ℚ) - 1)) 0.0 1.0
    let severity := (1.9 * sprint + 1.2 * mile + 0.7 * stayer)
      * (if surface = .TURF then 1.15 else 1.0)
    let ideal := _gate_ideal_pos style
    let style_pen := |gate_pos - ideal| * severity * 2.3
    let outside_sev := (1.4 * sprint + 0.9 * mile + 0.5 * stayer)
      * (if surface = .TURF then 1.05 else 1.0)
    let outside_pen := gate_pos * outside_sev * 1.3
    let raw := style_pen + outside_pen
    let mitig := 1.0 - 0.50 * clampQ break_skill 0.0 1.0
    raw * mitig

/-- `_turn_penalty` (positive = bad, hits the mid phase). -/
def _turn_penalty (gate : ℤ) (n_runners : ℕ) (surface : Surface)
    (sprint mile stayer corner_skill : ℚ) : ℚ :=
  if n_runners ≤ 1 then 0.0
  else
    let gate_pos := clampQ (((gate : ℚ) - 1) / ((n_runners : ℚ) - 1)) 0.0 1.0
    let sev := (1.6 * sprint + 1.2 * mile + 0.9 * stayer)
      * (if surface = .TURF then 1.15 else 1.0)
    let lack := 1.0 - clampQ corner_skill 0.0 1.0
    gate_pos * sev * lack * 1.8

/-- src/surfaces.py `ac_category`. -/
def ac_category (ac : ℤ) : String :=
  if ac ≤ 63 then "TURF"
  else if ac ≤ 212 then "MIXED"
  else if ac ≤ 254 then "DIRT_LEAN"
  else "DIRT_MAX"

/-- src/surfaces.py `surface_fit`. -/
def surface_fit (ac : ℤ) (race_surface : Surface) : ℚ :=
  let cat := ac_category ac
  if cat = "TURF" then (if race_surface = .TURF then 0.9 else -0.6)
  else if cat = "MIXED" then 0.2
  else if cat = "DIRT_LEAN" then (if race_surface = .DIRT then 0.6 else -0.2)
  else (if race_surface = .DIRT then 1.0 else -0.5)

/-- `_surface_scalar`: AC-preference performance scalar. -/
def _surface_scalar (ac : ℤ) (surface : Surface) (cond : Condition) : ℚ :=
  let fit := surface_fit ac surface
  let heavy := _condition_heaviness cond
  if 0 ≤ fit then 1.0 + 0.10 * fit
  else 1.0 + 0.24 * fit * (1.0 + 0.90 * heavy)

/-- `_pace_hotness`: 0..2 pace intensity from the early-speed spread. -/
noncomputable def _pace_hotness (early_potentials : List ℚ) : ℝ :=
  let n := early_potentials.length
  if n < 3 then 0
  else
    let mean : ℚ := early_potentials.sum / (n : ℚ)
    let var : ℚ := (early_potentials.map (fun v => (v - mean) ^ 2)).sum / (n : ℚ)
    let sd : ℝ := if var > 1e-9 then Real.sqrt (var : ℚ) else 0.0
    if sd ≤ 1e-9 then 0
    else
      let top3 := (early_potentials.mergeSort (fun a b => decide (b ≤ a))).take 3
      let top_mean : ℚ := top3.sum / 3.0
      clampR ((((top_mean : ℝ) - (mean : ℝ)) / sd) - 0.25) 0.0 2.0

/-! ### Gate draw -/

/-- Python's simultaneous `gates[i], gates[j] = gates[j], gates[i]`. -/
def swapL (l : List ℤ) (i j : ℕ) : List ℤ :=
  (l.set i (l.getD j 0)).set j (l.getD i 0)

/-- The manual Fisher–Yates loop `for i in range(len-1, 0, -1)` of
`draw_gates`; the argument is the current loop index.  (For a draw outside
`[0,1)` — impossible for Python's `random()` — the truncated index is
clamped into range by `List.set`'s out-of-range no-op.) -/
def fyLoop (M : RandModel) : ℕ → List ℤ → RState → List ℤ × RState
  | 0, l, s => (l, s)
  | i + 1, l, s =>
      let q := (M.draw s).1
      let s' := (M.draw s).2
      let j := (pyInt (q * ((i : ℚ) + 2))).toNat
      fyLoop M i (swapL l (i + 1) j) s'

/-- src/race_engine.py `draw_gates`: deterministic gate draw, returned as
the association list `{h.id: gates[i]}` in runner order. -/
def draw_gates (M : RandModel) (seed meet_iter : ℕ) (race_meta : RaceMeta)
    (condition : Condition) (runners : List Horse) : List (String × ℤ) :=
  let base := M.h64 [toString seed, toString meet_iter, race_meta.courseCode,
    toString race_meta.distance, surfaceStr race_meta.surface, conditionStr condition]
  let s0 : RState := ⟨M.h64 [toString base, "GATE"], 0⟩
  let gates0 : List ℤ := (List.range runners.length).map (fun k : ℕ => (k : ℤ) + 1)
  let gates := (fyLoop M (runners.length - 1) gates0 s0).1
  (runners.map Horse.id).zip gates

/-- Setting one index exchanges one occurrence: the element counts shift
by the old and the new value. -/
theorem count_set (l : List ℤ) (i : ℕ) (b : ℤ) (hi : i < l.length) (a : ℤ) :
    (l.set i b).count a + (if l.get ⟨i, hi⟩ = a then 1 else 0)
      = l.count a + (if b = a then 1 else 0) := by
  rw [List.set_eq_take_cons_drop b hi]
  conv_rhs => rw [← List.take_append_drop i l, List.drop_eq_getElem_cons hi]
  simp only [List.count_append, List.count_cons, List.get_eq_getElem, beq_iff_eq]
  omega

theorem swapL_length (l : List ℤ) (i j : ℕ) : (swapL l i j).length = l.length := by
  simp [swapL]

/-- An in-range swap permutes the list. -/
theorem swapL_perm (l : List ℤ) (i j : ℕ) (hi : i < l.length) (hj : j < l.length) :
    List.Perm (swapL l i j) l := by
  rw [List.perm_iff_count]
  intro a
  have hgdj : l.getD j 0 = l.get ⟨j, hj⟩ := by
    rw [List.get_eq_getElem]
    exact List.getD_eq_getElem l 0 hj
  have hgdi : l.getD i 0 = l.get ⟨i, hi⟩ := by
    rw [List.get_eq_getElem]
    exact List.getD_eq_getElem l 0 hi
  show ((l.set i (l.getD j 0)).set j (l.getD i 0)).count a = l.count a
  rw [hgdj, hgdi]
  have hj1 : j < (l.set i (l.get ⟨j, hj⟩)).length := by simpa using hj
  have h1 := count_set l i (l.get ⟨j, hj⟩) hi a
  have h2 := count_set (l.set i (l.get ⟨j, hj⟩)) j (l.get ⟨i, hi⟩) hj1 a
  rcases eq_or_ne i j with rfl | hne
  · have hval : (l.set i (l.get ⟨i, hj⟩)).get ⟨i, hj1⟩ = l.get ⟨i, hi⟩ := by
      simp only [List.get_eq_getElem]
      exact List.getElem_set_self (by simpa using hi)
    rw [hval] at h2
    omega
  · have hval : (l.set i (l.get ⟨j, hj⟩)).get ⟨j, hj1⟩ = l.get ⟨j, hj⟩ := by
      simp only [List.get_eq_getElem]
      exact List.getElem_set_ne hne _
    rw [hval] at h2
    omega

/-- The Fisher–Yates loop permutes the gate list, for any uniform-valid
random model. -/
theorem fyLoop_perm (M : RandModel) (hu : M.Uniform) :
    ∀ (i : ℕ) (l : List ℤ) (s : RState), (i < l.length ∨ i = 0) →
      List.Perm (fyLoop M i l s).1 l := by
  intro i
  induction i with
  | zero => intro l s _; exact List.Perm.refl l
  | succ m ih =>
      intro l s hi
      have hlen : m + 1 < l.length := by
        rcases hi with h | h
        · exact h
        · omega
      rw [fyLoop]
      have hq := hu s.seed s.k
      have hj : ((pyInt ((M.draw s).1 * ((m : ℚ) + 2))).toNat) < l.length := by
        have hq0 : (0 : ℚ) ≤ (M.draw s).1 * ((m : ℚ) + 2) :=
          mul_nonneg hq.1 (by positivity)
        have hqlt : (M.draw s).1 * ((m : ℚ) + 2) < ((m : ℚ) + 2) := by
          have h2 : (0 : ℚ) < (m : ℚ) + 2 := by positivity
          calc (M.draw s).1 * ((m : ℚ) + 2) < 1 * ((m : ℚ) + 2) :=
                mul_lt_mul_of_pos_right hq.2 h2
            _ = (m : ℚ) + 2 := one_mul _
        have hpy : pyInt ((M.draw s).1 * ((m : ℚ) + 2)) = ⌊(M.draw s).1 * ((m : ℚ) + 2)⌋ := by
          unfold pyInt
          rw [if_pos hq0]
        have hfl0 : (0 : ℤ) ≤ ⌊(M.draw s).1 * ((m : ℚ) + 2)⌋ := Int.floor_nonneg.mpr hq0
        have hflm : ⌊(M.draw s).1 * ((m : ℚ) + 2)⌋ < (m : ℤ) + 2 := by
          refine Int.floor_lt.mpr ?_
          push_cast
          exact hqlt
        rw [hpy]
        omega
      refine List.Perm.trans (ih _ _ ?_) (swapL_perm l (m + 1) _ hlen hj)
      rw [swapL_length]
      omega

/-- C5: for every `draw_gates` call with N runners (with distinct ids, and
the uniform `random()` guarantee), the returned mapping pairs every
competitor id with a gate, and the multiset of assigned gates is exactly
a permutation of {1,…,N}: no duplicate gates and no gaps. -/
theorem draw_gates_perm (M : RandModel) (seed meet_iter : ℕ) (race_meta : RaceMeta)
    (condition : Condition) (runners : List Horse)
    (hu : M.Uniform) (_hnd : (runners.map Horse.id).Nodup) :
    (draw_gates M seed meet_iter race_meta condition runners).map Prod.fst
        = runners.map Horse.id ∧
      List.Perm ((draw_gates M seed meet_iter race_meta condition runners).map Prod.snd)
        ((List.range runners.length).map (fun k : ℕ => (k : ℤ) + 1)) := by
  unfold draw_gates
  simp only []
  have hside : runners.length - 1
      < ((List.range runners.length).map (fun k : ℕ => (k : ℤ) + 1)).length ∨
      runners.length - 1 = 0 := by
    rw [List.length_map, List.length_range]
    omega
  have hperm := fyLoop_perm M hu (runners.length - 1)
    ((List.range runners.length).map (fun k : ℕ => (k : ℤ) + 1))
    ⟨M.h64 [toString (M.h64 [toString seed, toString meet_iter, race_meta.courseCode,
      toString race_meta.distance, surfaceStr race_meta.surface, conditionStr condition]),
      "GATE"], 0⟩ hside
  have hlen : ((fyLoop M (runners.length - 1)
      ((List.range runners.length).map (fun k : ℕ => (k : ℤ) + 1))
      ⟨M.h64 [toString (M.h64 [toString seed, toString meet_iter, race_meta.courseCode,
        toString race_meta.distance, surfaceStr race_meta.surface, conditionStr condition]),
        "GATE"], 0⟩).1).length = runners.length := by
    rw [hperm.length_eq]
    simp
  constructor
  · refine List.map_fst_zip _ _ ?_
    rw [hlen, List.length_map]
  · rw [List.map_snd_zip _ _ (by rw [hlen, List.length_map])]
    exact hperm

/-- A model whose `random()` stream is constantly 1/2 (uniform-valid) with
identity shuffle. -/
def Mhalf : RandModel :=
  ⟨fun _ => 0, fun _ _ => 1/2, fun _ l => l⟩

/-- A concrete race: Central City 1200m turf. -/
def raceMetaCC : RaceMeta :=
  ⟨1, .R1, "Central City", 1200, 100000, "CC", .TURF⟩

/-- Witness for C5 at a concrete two-horse field. -/
theorem draw_gates_perm_witness :
    (draw_gates Mhalf 0 0 raceMetaCC .GOOD [mkHorse "A" 1, mkHorse "B" 2]).map Prod.fst
        = [mkHorse "A" 1, mkHorse "B" 2].map Horse.id ∧
      List.Perm
        ((draw_gates Mhalf 0 0 raceMetaCC .GOOD [mkHorse "A" 1, mkHorse "B" 2]).map Prod.snd)
        ((List.range ([mkHorse "A" 1, mkHorse "B" 2] : List Horse).length).map
          (fun k : ℕ => (k : ℤ) + 1)) :=
  draw_gates_perm Mhalf 0 0 raceMetaCC .GOOD [mkHorse "A" 1, mkHorse "B" 2]
    (fun _ _ => by constructor <;> norm_num [Mhalf]) (by decide)

/-! ### Race simulation -/

/-- `gate_by_id.get(h.id, 1)`: a missing id silently defaults to gate 1. -/
def gateGet (gm : List (String × ℤ)) (hid : String) : ℤ :=
  (gm.lookup hid).getD 1

/-- src/race_engine.py `_early_mid_late_base`: base early/mid/late phase
scores with style bonuses, gate and turn penalties and the two
break-variance draws. -/
def _early_mid_late_base (M : RandModel) (h : Horse) (sprint mile stayer : ℚ)
    (gate : ℤ) (n_runners : ℕ) (surface : Surface) (hrng : RState) :
    (ℚ × ℚ × ℚ) × RState :=
  let st : ℚ := (h.internals.stamina : ℚ)
  let sp : ℚ := (h.internals.speed : ℚ)
  let sh : ℚ := (h.internals.sharp : ℚ)
  let start := _ext_norm h.externals.start
  let corner := _ext_norm h.externals.corner
  let oob := _ext_norm h.externals.oob
  let comp := _ext_norm h.externals.competing
  let ten := _ext_norm h.externals.tenacious
  let spur := _ext_norm h.externals.spurt
  let style := h.style
  let early_i := 0.60 * sp + 0.40 * sh
  let early_e := 0.65 * start + 0.35 * oob
  let early1 := 0.45 * early_i + 0.55 * early_e
  let mid_i := 0.45 * sp + 0.25 * sh + 0.30 * st
  let mid_e := 0.55 * comp + 0.45 * corner
  let mid1 := 0.55 * mid_e + 0.45 * mid_i
  let late_i := 0.55 * st + 0.30 * sp + 0.15 * sh
  let late_e := 0.55 * spur + 0.45 * ten
  let late1 := 0.55 * late_e + 0.45 * late_i
  let early2 := early1 + _STYLE_EARLY_BONUS style
  let mid2 := mid1 + _STYLE_MID_BONUS style
  let late2 := late1 + _STYLE_LATE_BONUS style
  let break_skill := (0.60 * start + 0.40 * oob) / 60.0
  let gp := _gate_penalty gate n_runners style surface sprint mile stayer break_skill
  let early3 := early2 - gp * (0.75 * sprint + 0.40 * mile + 0.20 * stayer)
  let mid3 := mid2 - gp * (0.25 * sprint + 0.40 * mile + 0.35 * stayer)
  let cp := _turn_penalty gate n_runners surface sprint mile stayer (corner / 60.0)
  let mid4 := mid3 - cp
  let tri := _tri_noise M hrng
  let early4 := early3 + tri.1 * (1.20 * sprint + 0.85 * mile + 0.60 * stayer)
  ((early4, mid4, late2), tri.2)

/-- The per-runner body of the scoring loop of `run_race_sim` (lines
367-457): traffic / clear-run draws, pace fade, distance fade, going
adjustment, phase combination, surface scalar and noise.  The per-horse
rng is re-created from the same per-race seed, as in the source. -/
noncomputable def _score_horse (M : RandModel) (base : ℕ) (condition : Condition)
    (sprint mile stayer : ℚ) (surface : Surface) (heavy : ℚ) (pace_hot : ℝ)
    (gate : ℤ) (rank : ℤ) (phase : ℚ × ℚ × ℚ) (h : Horse) : ℝ :=
  let hrng : RState := ⟨M.h64 [toString base, h.id, "HORSE"], 0⟩
  let style := h.style
  let st : ℚ := (h.internals.stamina : ℚ)
  let sp : ℚ := (h.internals.speed : ℚ)
  let sh : ℚ := (h.internals.sharp : ℚ)
  let oob := _ext_norm h.externals.oob
  let comp := _ext_norm h.externals.competing
  let ten := _ext_norm h.externals.tenacious
  let early := phase.1
  let mid0 := phase.2.1
  let late0 := phase.2.2
  let is_closer := style = .LS ∨ style = .SR ∨ 8 ≤ rank
  let tp0 := 0.12 + 0.06 * sprint + 0.08 * mile + 0.10 * stayer
  let tp1 := if is_closer then tp0 + 0.10 else tp0
  let tp2 := if surface = .DIRT ∧ 0.70 ≤ heavy then tp1 + 0.05 else tp1
  let tp3 := if gate ≤ 4 then tp2 + 0.07 else if gate ≤ 8 then tp2 + 0.03 else tp2
  let tp4 := tp3 - (oob / 60.0) * 0.18 - (comp / 60.0) * 0.08
  let traffic_prob := clampQ tp4 0.0 0.55
  let r0 := (M.draw hrng).1
  let s1 := (M.draw hrng).2
  let mls : (ℚ × ℚ) × RState :=
    if r0 < traffic_prob then
      let r1 := (M.draw s1).1
      let s2 := (M.draw s1).2
      let penalty := (1.5 + r1 * 2.5) * (1.0 - (oob / 60.0) * 0.55)
      ((mid0 - penalty * 0.25,
        late0 - penalty * (0.65 * sprint + 0.55 * mile + 0.45 * stayer)), s2)
    else
      if is_closer ∧ 45.0 ≤ oob then
        let r1 := (M.draw s1).1
        let s2 := (M.draw s1).2
        let cut_chance := 0.12 + 0.08 * mile + 0.06 * stayer
        if r1 < cut_chance then
          let r2 := (M.draw s2).1
          let s3 := (M.draw s2).2
          ((mid0, late0 + (1.0 + r2 * 1.5)), s3)
        else ((mid0, late0), s2)
      else ((mid0, late0), s1)
  let mid := mls.1.1
  let late := mls.1.2
  let pos_fac : ℚ :=
    if rank ≤ 2 then 1.00
    else if rank ≤ 4 then 0.85
    else if rank ≤ 6 then 0.65
    else if rank ≤ 9 then 0.40
    else 0.25
  let endurance := _STYLE_ENDURANCE style
  let dist_fac := 0.30 * sprint + 0.70 * mile + 1.00 * stayer
  let energy := 0.55 * st + 0.45 * ten
  let energy_def := (max 0.0 (32.0 - energy)) / 32.0
  let pace_fade : ℝ := pace_hot
    * ((pos_fac * endurance * dist_fac * (1.5 + 2.5 * energy_def) : ℚ) : ℝ)
  let sprinter_apt := 0.55 * sp + 0.45 * sh
  let mismatch := max 0.0 (sprinter_apt - st)
  let dist_fade := (mismatch / 40.0) * endurance
    * (0.20 * sprint + 0.80 * mile + 1.20 * stayer) * 2.8
  let handling := 0.45 * st + 0.55 * ten
  let going_adj := heavy * ((handling - 30.0) / 30.0) * 2.0
  let w_early := 0.45 * sprint + 0.30 * mile + 0.20 * stayer
  let w_mid := 0.30 * sprint + 0.35 * mile + 0.35 * stayer
  let w_late := 0.25 * sprint + 0.35 * mile + 0.45 * stayer
  let score0 : ℝ :=
    ((w_early * early + w_mid * mid + w_late * late + going_adj - dist_fade : ℚ) : ℝ)
      - pace_fade
  let score1 := score0 * ((_surface_scalar h.ac surface condition : ℚ) : ℝ)
  let sigma : ℚ := 0.95 * sprint + 0.75 * mile + 0.60 * stayer
  let g := _gauss M mls.2 0.0 ((sigma : ℚ) : ℝ)
  let score2 := score1 + g.1
  let tri := _tri_noise M g.2
  score2 + ((tri.1 : ℚ) : ℝ) * 0.25

/-- The scoring stage of `run_race_sim`: per-runner phase build-up
(including gate and break variance), pace hotness, early ranking, and the
final per-runner scores, keyed by horse id in runner order. -/
noncomputable def simScores (M : RandModel) (base : ℕ) (race_meta : RaceMeta)
    (condition : Condition) (runners : List Horse)
    (gate_by_id : List (String × ℤ)) : List (String × ℝ) :=
  let dp := distance_profile race_meta.distance
  let sprint := dp.1
  let mile := dp.2.1
  let stayer := dp.2.2
  let surface := race_meta.surface
  let heavy := _condition_heaviness condition
  let phase_by_id : List (String × (ℚ × ℚ × ℚ)) := runners.map (fun h =>
    (h.id, (_early_mid_late_base M h sprint mile stayer (gateGet gate_by_id h.id)
      runners.length surface ⟨M.h64 [toString base, h.id, "HORSE"], 0⟩).1))
  let phaseOf : String → ℚ × ℚ × ℚ := fun i => (phase_by_id.lookup i).getD (0, 0, 0)
  let early_pots : List ℚ := runners.map (fun h => (phaseOf h.id).1)
  let pace_hot := _pace_hotness early_pots
  let early_order := runners.mergeSort
    (fun a b => decide ((phaseOf b.id).1 ≤ (phaseOf a.id).1))
  let early_rank : String → ℤ := fun i => ((early_order.map Horse.id).indexOf i : ℤ) + 1
  runners.map (fun h =>
    (h.id, _score_horse M base condition sprint mile stayer surface heavy pace_hot
      (gateGet gate_by_id h.id) (early_rank h.id) (phaseOf h.id) h))

structure RaceSimResult where
  scores : List (String × ℝ)
  finishOrder : List Horse
  payouts : List (String × ℤ)
  gates : List (String × ℤ)
  payoutsByPos : List (ℕ × ℤ)

/-- src/race_engine.py `run_race_sim`: simulate one race.  The runner
field is the player plus the cpu list; a `none` gate map triggers the
deterministic gate draw; a provided map is used as-is, with missing ids
silently defaulting to gate 1 via `gateGet`. -/
noncomputable def run_race_sim (M : RandModel) (seed meet_iter : ℕ)
    (race_meta : RaceMeta) (condition : Condition) (player : Horse)
    (cpu11 : List Horse) (gate_opt : Option (List (String × ℤ))) : RaceSimResult :=
  let runners := player :: cpu11
  let base := M.h64 [toString seed, toString meet_iter, race_meta.courseCode,
    toString race_meta.distance, surfaceStr race_meta.surface, conditionStr condition]
  let gate_by_id := gate_opt.getD (draw_gates M seed meet_iter race_meta condition runners)
  let scores := simScores M base race_meta condition runners gate_by_id
  let scoreOf : String → ℝ := fun i => (scores.lookup i).getD 0
  let finish_order := runners.mergeSort (fun a b => decide (scoreOf b.id ≤ scoreOf a.id))
  let finish_ids := finish_order.map Horse.id
  let purse := race_meta.winnerPurse
  let payout_list : List ℤ := [purse, pyInt ((purse : ℚ) * 0.3), pyInt ((purse : ℚ) * 0.2)]
  let payouts := finish_ids.zip payout_list
  let payouts_by_pos : List (ℕ × ℤ) :=
    [(1, purse), (2, pyInt ((purse : ℚ) * 0.3)), (3, pyInt ((purse : ℚ) * 0.2))]
  ⟨scores, finish_order, payouts, gate_by_id, payouts_by_pos⟩

/-- C1: determinism of the race simulator.  `run_race_sim` is embedded as
a pure function of its explicit inputs: every random draw comes from a
disposable rng state freshly derived by hashing the race context and the
horse id (never from shared mutable state), and the hash and PRNG
themselves are deterministic functions (`RandModel`).  Hence two
independent invocations with identical seed, meet iteration, race context,
condition, field and gate assignment produce identical per-competitor
scores and the identical finish order. -/
theorem run_race_sim_deterministic (M : RandModel) (seed meet_iter : ℕ)
    (race_meta : RaceMeta) (condition : Condition) (player : Horse)
    (cpu11 : List Horse) (gate_opt : Option (List (String × ℤ)))
    (r1 r2 : RaceSimResult)
    (h1 : r1 = run_race_sim M seed meet_iter race_meta condition player cpu11 gate_opt)
    (h2 : r2 = run_race_sim M seed meet_iter race_meta condition player cpu11 gate_opt) :
    r1.scores = r2.scores ∧ r1.finishOrder = r2.finishOrder := by
  subst h1
  subst h2
  exact ⟨rfl, rfl⟩

/-- Witness for C1: two invocations at a concrete seed-42 two-horse race. -/
theorem run_race_sim_deterministic_witness :
    (run_race_sim Mhalf 42 0 raceMetaCC .GOOD (mkHorse "P" 30) [mkHorse "Q" 31] none).scores
        = (run_race_sim Mhalf 42 0 raceMetaCC .GOOD (mkHorse "P" 30)
            [mkHorse "Q" 31] none).scores ∧
      (run_race_sim Mhalf 42 0 raceMetaCC .GOOD (mkHorse "P" 30) [mkHorse "Q" 31] none).finishOrder
        = (run_race_sim Mhalf 42 0 raceMetaCC .GOOD (mkHorse "P" 30)
            [mkHorse "Q" 31] none).finishOrder :=
  run_race_sim_deterministic Mhalf 42 0 raceMetaCC .GOOD (mkHorse "P" 30)
    [mkHorse "Q" 31] none _ _ rfl rfl

/-- The gate map obtained by replacing an arbitrary gate dict with its
patched totalization on the runner field: every runner id is bound to the
gate the engine would look up for it (`get(h.id, 1)`). -/
def totalizeGates (gm : List (String × ℤ)) (runners : List Horse) :
    List (String × ℤ) :=
  runners.map (fun h => (h.id, gateGet gm h.id))

theorem gateGet_totalize (gm : List (String × ℤ)) (runners : List Horse)
    (h : Horse) (hmem : h ∈ runners) :
    gateGet (totalizeGates gm runners) h.id = gateGet gm h.id := by
  unfold totalizeGates
  induction runners with
  | nil => cases hmem
  | cons x rest ih =>
      by_cases hx : h.id = x.id
      · unfold gateGet
        simp [List.lookup, hx]
      · rcases List.mem_cons.mp hmem with rfl | hmem2
        · exact absurd rfl hx
        · have hbeq : (h.id == x.id) = false := beq_eq_false_iff_ne.mpr hx
          unfold gateGet
          simp only [List.map_cons, List.lookup, hbeq]
          exact ih hmem2

/-- The scoring stage depends on the gate map only through the per-runner
lookups. -/
theorem simScores_congr (M : RandModel) (base : ℕ) (race_meta : RaceMeta)
    (condition : Condition) (runners : List Horse)
    (gm1 gm2 : List (String × ℤ))
    (hg : ∀ h ∈ runners, gateGet gm1 h.id = gateGet gm2 h.id) :
    simScores M base race_meta condition runners gm1
      = simScores M base race_meta condition runners gm2 := by
  unfold simScores
  simp only []
  have hphase : runners.map (fun h =>
      (h.id, (_early_mid_late_base M h (distance_profile race_meta.distance).1
        (distance_profile race_meta.distance).2.1 (distance_profile race_meta.distance).2.2
        (gateGet gm1 h.id) runners.length race_meta.surface
        ⟨M.h64 [toString base, h.id, "HORSE"], 0⟩).1))
      = runners.map (fun h =>
      (h.id, (_early_mid_late_base M h (distance_profile race_meta.distance).1
        (distance_profile race_meta.distance).2.1 (distance_profile race_meta.distance).2.2
        (gateGet gm2 h.id) runners.length race_meta.surface
        ⟨M.h64 [toString base, h.id, "HORSE"], 0⟩).1)) := by
    refine List.map_congr_left ?_
    intro h hm
    rw [hg h hm]
  rw [hphase]
  refine List.map_congr_left ?_
  intro h hm
  rw [hg h hm]

/-- C7 (amended): `run_race_sim` performs no input validation and cannot
fail: a gate map that is not a permutation covering every runner — in
particular one missing a runner's entry — is silently patched by treating
every missing runner as drawn in gate 1, and the simulation proceeds to
produce the same scores, finish order and payouts as if that patched map
had been supplied.  (An empty CPU list likewise yields a normal
single-runner result rather than an error.) -/
theorem run_race_sim_patches_gates (M : RandModel) (seed meet_iter : ℕ)
    (race_meta : RaceMeta) (condition : Condition) (player : Horse)
    (cpu11 : List Horse) (gm : List (String × ℤ)) :
    (run_race_sim M seed meet_iter race_meta condition player cpu11 (some gm)).scores
        = (run_race_sim M seed meet_iter race_meta condition player cpu11
            (some (totalizeGates gm (player :: cpu11)))).scores ∧
      (run_race_sim M seed meet_iter race_meta condition player cpu11 (some gm)).finishOrder
        = (run_race_sim M seed meet_iter race_meta condition player cpu11
            (some (totalizeGates gm (player :: cpu11)))).finishOrder ∧
      (run_race_sim M seed meet_iter race_meta condition player cpu11 (some gm)).payouts
        = (run_race_sim M seed meet_iter race_meta condition player cpu11
            (some (totalizeGates gm (player :: cpu11)))).payouts := by
  have hg : ∀ h ∈ (player :: cpu11),
      gateGet gm h.id = gateGet (totalizeGates gm (player :: cpu11)) h.id :=
    fun h hm => (gateGet_totalize gm (player :: cpu11) h hm).symm
  have hs := simScores_congr M
    (M.h64 [toString seed, toString meet_iter, race_meta.courseCode,
      toString race_meta.distance, surfaceStr race_meta.surface, conditionStr condition])
    race_meta condition (player :: cpu11) gm (totalizeGates gm (player :: cpu11)) hg
  unfold run_race_sim
  simp only [Option.getD_some]
  simp only [hs]
  exact ⟨trivial, trivial, trivial⟩

/-- C7, counterexample: at a concrete two-horse race, supplying the empty
gate map — not a permutation, covering no runner — does not fail fast: the
simulator silently patches both runners to gate 1 and produces exactly the
scores and finish order of the run whose gate map explicitly assigns the
(duplicated, still non-permutation) gate 1 to both runners. -/
theorem run_race_sim_no_validation_cex :
    (run_race_sim Mhalf 0 0 raceMetaCC .GOOD (mkHorse "P" 30) [mkHorse "Q" 31]
        (some [])).scores
        = (run_race_sim Mhalf 0 0 raceMetaCC .GOOD (mkHorse "P" 30) [mkHorse "Q" 31]
            (some [("P", 1), ("Q", 1)])).scores ∧
      (run_race_sim Mhalf 0 0 raceMetaCC .GOOD (mkHorse "P" 30) [mkHorse "Q" 31]
          (some [])).finishOrder
        = (run_race_sim Mhalf 0 0 raceMetaCC .GOOD (mkHorse "P" 30) [mkHorse "Q" 31]
            (some [("P", 1), ("Q", 1)])).finishOrder := by
  have hg : ∀ h ∈ (mkHorse "P" 30 :: [mkHorse "Q" 31]),
      gateGet [] h.id = gateGet [("P", 1), ("Q", 1)] h.id := by
    intro h hm
    rcases List.mem_cons.mp hm with rfl | hm2
    · rfl
    · rcases List.mem_cons.mp hm2 with rfl | hm3
      · rfl
      · cases hm3
  have hs := simScores_congr Mhalf
    (Mhalf.h64 [toString 0, toString 0, raceMetaCC.courseCode,
      toString raceMetaCC.distance, surfaceStr raceMetaCC.surface, conditionStr .GOOD])
    raceMetaCC .GOOD (mkHorse "P" 30 :: [mkHorse "Q" 31]) [] [("P", 1), ("Q", 1)] hg
  unfold run_race_sim
  simp only [Option.getD_some]
  simp only [hs]
  exact ⟨trivial, trivial⟩

/-! ## Track records (src/records.py) -/

/-- `EPS_BREAK`: a record must be beaten by more than this margin
(seconds). -/
def EPS_BREAK : ℚ := 0.10

structure RecordEntry where
  time_seconds : ℝ
  holder : String

/-- The persisted record table `course|distance|surface → entry`,
embedded as a function into `Option`. -/
def Records : Type := String → Option RecordEntry

/-- src/records.py `_key`. -/
def _key (course_code : String) (distance : ℤ) (surface : Surface) : String :=
  course_code ++ "|" ++ toString distance ++ "|" ++ surfaceStr surface

/-- `ensure_record`: create the record from the synthetic par if missing;
returns the entry and the (possibly extended) table. -/
def ensure_record (records : Records) (course_code : String) (distance : ℤ)
    (surface : Surface) (time_seconds : ℝ) (holder : String) :
    RecordEntry × Records :=
  match records (_key course_code distance surface) with
  | some e => (e, records)
  | none =>
      let e : RecordEntry := ⟨time_seconds, holder⟩
      (e, fun k2 => if k2 = _key course_code distance surface then some e else records k2)

/-- `update_if_broken`: replace the entry when the new time beats the
stored one by more than `EPS_BREAK` (creating it when absent); returns
(broken?, entry) and the updated table. -/
noncomputable def update_if_broken (records : Records) (course_code : String)
    (distance : ℤ) (surface : Surface) (time_seconds : ℝ) (holder : String) :
    (Bool × RecordEntry) × Records :=
  match records (_key course_code distance surface) with
  | none =>
      let e : RecordEntry := ⟨time_seconds, holder⟩
      ((true, e), fun k2 => if k2 = _key course_code distance surface then some e else records k2)
  | some e0 =>
      if time_seconds < e0.time_seconds - ((EPS_BREAK : ℚ) : ℝ) then
        let e : RecordEntry := ⟨time_seconds, holder⟩
        ((true, e), fun k2 => if k2 = _key course_code distance surface then some e else records k2)
      else ((false, e0), records)

/-! ## Timed results (src/race_reporting.py) -/

/-- `condition_time_penalty`: seconds added to the baseline, scaled by
distance; turf is fastest on GOOD, dirt on SOFT. -/
def condition_time_penalty (surface : Surface) (condition : Condition)
    (distance : ℤ) : ℚ :=
  let step : ℚ :=
    if surface = .TURF then
      match condition with
      | .GOOD => 0
      | .GOOD_TO_SOFT => 1
      | .SOFT => 2
      | .HEAVY => 3
    else
      match condition with
      | .SOFT => 0
      | .HEAVY => 1
      | .GOOD_TO_SOFT => 2
      | .GOOD => 3
  step * 0.55 * ((distance : ℚ) / 1600.0)

/-- `par_time_seconds`: synthetic baseline when no record is known. -/
def par_time_seconds (distance : ℤ) (surface : Surface) : ℚ :=
  (distance : ℚ) / (if surface = .TURF then 17.0 else 16.6)

/-- src/surfaces.py `condition_speed_scalar`. -/
def condition_speed_scalar (surface : Surface) (cond : Condition) : ℚ :=
  if surface = .TURF then
    match cond with
    | .GOOD => 0.02
    | .GOOD_TO_SOFT => 0.00
    | .SOFT => -0.01
    | .HEAVY => -0.03
  else
    match cond with
    | .SOFT => 0.02
    | .HEAVY => 0.01
    | .GOOD_TO_SOFT => 0.00
    | .GOOD => -0.02

structure RaceRunnerResult where
  pos : ℕ
  horse_id : String
  horse_name : String
  time_seconds : ℝ
  lengths_behind : ℝ

structure TimedRace where
  runners : List RaceRunnerResult
  winner_time : ℝ
  record_broken : Bool
  record_entry : RecordEntry

/-- `enumerate(updated, start=i)` over the time-sorted runners, with
`lengths_behind = (t - winner_time) / 0.20`. -/
noncomputable def numberResults (winner_time : ℝ) :
    ℕ → List (Horse × ℝ) → List RaceRunnerResult
  | _, [] => []
  | i, (h, t) :: rest =>
      ⟨i, h.id, h.name, t, (t - winner_time) / 0.20⟩
        :: numberResults winner_time (i + 1) rest

/-- src/race_reporting.py `timed_results`.  The record table is threaded
explicitly; an empty finish order makes Python raise `ValueError` at the
`min()` — embedded as a `none` result — but only after `ensure_record` has
possibly extended the table, which the returned table reflects. -/
noncomputable def timed_results (race : RaceMeta) (condition : Condition)
    (finish_order : List Horse) (scores : String → Option ℝ)
    (records_state : Records) : Option TimedRace × Records :=
  let er := ensure_record records_state race.courseCode race.distance race.surface
    ((par_time_seconds race.distance race.surface : ℚ) : ℝ) "N/A"
  let rec0 := er.1
  let records1 := er.2
  match finish_order with
  | [] => (none, records1)
  | _ :: _ =>
    let cond_fastness : ℚ := condition_speed_scalar race.surface condition
    let base : ℝ := (rec0.time_seconds + 2.00
        + ((condition_time_penalty race.surface condition race.distance : ℚ) : ℝ))
      * (((1.0 - 0.25 * cond_fastness : ℚ)) : ℝ)
    let sc : List ℝ := finish_order.map (fun h => (scores h.id).getD 0.0)
    let mu : ℝ := sc.sum / (max 1 sc.length : ℕ)
    let var : ℝ := (sc.map (fun x => (x - mu) ^ 2)).sum / (max 1 sc.length : ℕ)
    let sd : ℝ := if var > 1e-9 then Real.sqrt var else 1.0
    let k : ℝ := 0.55
    let runners_raw : List (Horse × ℝ) := finish_order.map
      (fun h => (h, base - k * ((((scores h.id).getD mu) - mu) / sd)))
    let min_t : ℝ := ((runners_raw.map Prod.snd).min?).getD 0
    let winner_time : ℝ :=
      max (rec0.time_seconds - 0.25) (min min_t (rec0.time_seconds + 8.00))
    let updated : List (Horse × ℝ) := runners_raw.map
      (fun p => (p.1, winner_time + max 0.0 (min (p.2 - min_t) 10.0)))
    let sortedU := updated.mergeSort (fun a b => decide (a.2 ≤ b.2))
    let out := numberResults winner_time 1 sortedU
    let fastest_ok :=
      condition = (if race.surface = .TURF then Condition.GOOD else Condition.SOFT)
    if fastest_ok then
      let ub := update_if_broken records1 race.courseCode race.distance race.surface
        winner_time ((out.headD ⟨0, "", "", 0, 0⟩).horse_name)
      (some ⟨out, winner_time, ub.1.1, ub.1.2⟩, ub.2)
    else
      (some ⟨out, winner_time, false, rec0⟩, records1)

theorem ensure_record_lookup (records : Records) (cc : String) (d : ℤ) (s : Surface)
    (t : ℝ) (holder : String) (k : String) (e : RecordEntry)
    (hk : records k = some e) :
    (ensure_record records cc d s t holder).2 k = some e := by
  unfold ensure_record
  cases hrk : records (_key cc d s) with
  | some e0 => simpa using hk
  | none =>
      simp only []
      show (if k = _key cc d s then some ⟨t, holder⟩ else records k) = some e
      by_cases hkk : k = _key cc d s
      · rw [hkk] at hk
        rw [hk] at hrk
        cases hrk
      · rw [if_neg hkk]
        exact hk

theorem update_if_broken_other (records : Records) (cc : String) (d : ℤ)
    (s : Surface) (t : ℝ) (holder k : String) (hkk : k ≠ _key cc d s) :
    (update_if_broken records cc d s t holder).2 k = records k := by
  unfold update_if_broken
  cases hrk : records (_key cc d s) with
  | none =>
      show (if k = _key cc d s then _ else records k) = records k
      rw [if_neg hkk]
  | some e0 =>
      simp only []
      split
      · show (if k = _key cc d s then _ else records k) = records k
        rw [if_neg hkk]
      · rfl

theorem update_if_broken_at (records : Records) (cc : String) (d : ℤ)
    (s : Surface) (t : ℝ) (holder : String) (e0 : RecordEntry)
    (h0 : records (_key cc d s) = some e0) :
    ∃ e2, (update_if_broken records cc d s t holder).2 (_key cc d s) = some e2 ∧
      (e2 = e0 ∨ (e2.time_seconds = t ∧ t < e0.time_seconds - ((EPS_BREAK : ℚ) : ℝ))) := by
  unfold update_if_broken
  rw [h0]
  simp only []
  split
  · rename_i hlt
    refine ⟨(⟨t, holder⟩ : RecordEntry), ?_, ?_⟩
    · show (if _key cc d s = _key cc d s then some (⟨t, holder⟩ : RecordEntry) else _)
        = some (⟨t, holder⟩ : RecordEntry)
      rw [if_pos rfl]
    · exact Or.inr ⟨rfl, hlt⟩
  · exact ⟨e0, h0, Or.inl rfl⟩

/-- C6: for every `timed_results` call and every (course, distance,
surface) key already present in the record table, the stored record time
is only ever lowered, never raised; it changes only when the race
condition is the designated fastest condition for the surface (GOOD on
turf, SOFT on dirt), and only when the winning time beats the stored
record by more than the fixed `EPS_BREAK` margin (the new stored time
then being that winning time, strictly more than `EPS_BREAK` below the
old one). -/
theorem timed_results_record_monotone (race : RaceMeta) (condition : Condition)
    (finish_order : List Horse) (scores : String → Option ℝ)
    (records_state : Records) (k : String) (e : RecordEntry)
    (hk : records_state k = some e) :
    ∃ e2, (timed_results race condition finish_order scores records_state).2 k = some e2 ∧
      e2.time_seconds ≤ e.time_seconds ∧
      (e2.time_seconds ≠ e.time_seconds →
        condition = (if race.surface = .TURF then Condition.GOOD else Condition.SOFT) ∧
        e2.time_seconds < e.time_seconds - ((EPS_BREAK : ℚ) : ℝ)) := by
  have heps : (0 : ℝ) < ((EPS_BREAK : ℚ) : ℝ) := by norm_num [EPS_BREAK]
  have h1 := ensure_record_lookup records_state race.courseCode race.distance
    race.surface ((par_time_seconds race.distance race.surface : ℚ) : ℝ) "N/A" k e hk
  unfold timed_results
  simp only []
  cases finish_order with
  | nil =>
      exact ⟨e, h1, le_refl _, fun hne => absurd rfl hne⟩
  | cons h0 rest =>
      simp only []
      by_cases hcond : condition
          = (if race.surface = .TURF then Condition.GOOD else Condition.SOFT)
      · rw [if_pos hcond]
        by_cases hkk : k = _key race.courseCode race.distance race.surface
        · subst hkk
          obtain ⟨e2, heq, hcase⟩ := update_if_broken_at _ race.courseCode race.distance
            race.surface _ _ e h1
          refine ⟨e2, heq, ?_, ?_⟩
          · rcases hcase with rfl | ⟨ht, hlt⟩
            · exact le_refl _
            · rw [ht]
              linarith [heps, hlt]
          · intro hne
            rcases hcase with rfl | ⟨ht, hlt⟩
            · exact absurd rfl hne
            · refine ⟨hcond, ?_⟩
              rw [ht]
              exact hlt
        · refine ⟨e, ?_, le_refl _, fun hne => absurd rfl hne⟩
          rw [update_if_broken_other _ race.courseCode race.distance race.surface _ _ k hkk]
          exact h1
      · rw [if_neg hcond]
        exact ⟨e, h1, le_refl _, fun hne => absurd rfl hne⟩

/-- A concrete one-key record table for the C6 witness. -/
noncomputable def recsOne : Records :=
  fun s => if s = "CC|1200|TURF" then some ⟨75.0, "Holder"⟩ else none

/-- Witness for C6 at a concrete call: the pre-existing CC|1200|TURF
record is never raised by a GOOD-turf race at Central City. -/
theorem timed_results_record_monotone_witness :
    recsOne "CC|1200|TURF" = some ⟨75.0, "Holder"⟩ ∧
      ∃ e2, (timed_results raceMetaCC .GOOD [mkHorse "P" 30]
          (fun _ => some 0) recsOne).2 "CC|1200|TURF" = some e2 ∧
        e2.time_seconds ≤ (75.0 : ℝ) ∧
        (e2.time_seconds ≠ (75.0 : ℝ) →
          Condition.GOOD
              = (if raceMetaCC.surface = .TURF then Condition.GOOD else Condition.SOFT) ∧
          e2.time_seconds < (75.0 : ℝ) - ((EPS_BREAK : ℚ) : ℝ)) :=
  ⟨by simp [recsOne],
    timed_results_record_monotone raceMetaCC .GOOD [mkHorse "P" 30] (fun _ => some 0)
      recsOne "CC|1200|TURF" ⟨75.0, "Holder"⟩ (by simp [recsOne])⟩

theorem numberResults_map_pos (wt : ℝ) :
    ∀ (i : ℕ) (l : List (Horse × ℝ)),
      (numberResults wt i l).map RaceRunnerResult.pos = List.range' i l.length := by
  intro i l
  induction l generalizing i with
  | nil => simp [numberResults, List.range']
  | cons p rest ih =>
      cases p with
      | mk h t =>
          rw [numberResults, List.length_cons, List.range'_succ i rest.length 1]
          simp only [List.map_cons, List.cons.injEq]
          exact ⟨trivial, ih (i + 1)⟩

theorem numberResults_length (wt : ℝ) :
    ∀ (i : ℕ) (l : List (Horse × ℝ)), (numberResults wt i l).length = l.length := by
  intro i l
  induction l generalizing i with
  | nil => simp [numberResults]
  | cons p rest ih =>
      cases p with
      | mk h t => simp [numberResults, ih (i + 1)]

theorem numberResults_mem (wt : ℝ) :
    ∀ (i : ℕ) (l : List (Horse × ℝ)) (r : RaceRunnerResult),
      r ∈ numberResults wt i l →
      ∃ q ∈ l, r.time_seconds = q.2 ∧ r.lengths_behind = (q.2 - wt) / 0.20 := by
  intro i l
  induction l generalizing i with
  | nil => intro r hr; simp [numberResults] at hr
  | cons p rest ih =>
      intro r hr
      cases p with
      | mk h t =>
          rw [numberResults] at hr
          rcases List.mem_cons.mp hr with rfl | hr2
          · exact ⟨(h, t), List.mem_cons_self _ _, rfl, rfl⟩
          · obtain ⟨q, hq, h1, h2⟩ := ih (i + 1) r hr2
            exact ⟨q, List.mem_cons_of_mem _ hq, h1, h2⟩

theorem numberResults_pairwise (wt : ℝ) :
    ∀ (i : ℕ) (l : List (Horse × ℝ)), l.Pairwise (fun a b => a.2 ≤ b.2) →
      (numberResults wt i l).Pairwise (fun a b => a.time_seconds ≤ b.time_seconds) := by
  intro i l
  induction l generalizing i with
  | nil => intro _; simp [numberResults]
  | cons p rest ih =>
      intro hp
      cases p with
      | mk h t =>
          rw [numberResults]
          refine List.Pairwise.cons ?_ (ih (i + 1) (List.pairwise_cons.mp hp).2)
          intro r hr
          obtain ⟨q, hq, hrt, _⟩ := numberResults_mem wt (i + 1) rest r hr
          rw [hrt]
          exact (List.pairwise_cons.mp hp).1 q hq

/-- Stable sort by second component yields a list pairwise nondecreasing
in the second component. -/
theorem mergeSort_pairwise_le (l : List (Horse × ℝ)) :
    (l.mergeSort (fun a b => decide (a.2 ≤ b.2))).Pairwise (fun a b => a.2 ≤ b.2) := by
  have h := @List.sorted_mergeSort (Horse × ℝ) (fun a b => decide (a.2 ≤ b.2))
    (fun a b c hab hbc =>
      decide_eq_true (le_trans (of_decide_eq_true hab) (of_decide_eq_true hbc)))
    (fun a b => by rcases le_total a.2 b.2 with hle | hle <;> simp [hle])
    l
  exact h.imp (fun hab => of_decide_eq_true hab)

theorem min?_spec (l : List ℝ) (hne : l ≠ []) :
    ∃ m, l.min? = some m ∧ m ∈ l ∧ ∀ x ∈ l, m ≤ x := by
  cases hm : l.min? with
  | none => exact absurd (List.min?_eq_none_iff.mp hm) hne
  | some m =>
      refine ⟨m, rfl, List.min?_mem min_choice hm, ?_⟩
      exact (List.le_min?_iff (fun a b c => le_min_iff) hm).mp (le_refl m)

/-- The core of C10: for any anchor time and nonempty raw runner list,
the clamped, re-anchored, sorted and numbered results are sorted by time
with consecutive positions from 1, the first runner sits exactly at the
anchor with zero lengths behind, and every time lies within 10 seconds
(50 lengths) of the anchor. -/
theorem timed_out_spec (wt min_t : ℝ) (rr upd sortedU : List (Horse × ℝ))
    (out : List RaceRunnerResult)
    (hmin : min_t = ((rr.map Prod.snd).min?).getD 0)
    (hupd : upd = rr.map (fun p => (p.1, wt + max 0.0 (min (p.2 - min_t) 10.0))))
    (hsort : sortedU = upd.mergeSort (fun a b => decide (a.2 ≤ b.2)))
    (hout : out = numberResults wt 1 sortedU)
    (hne : rr ≠ []) :
    out.map RaceRunnerResult.pos = List.range' 1 out.length ∧
      out.Pairwise (fun a b => a.time_seconds ≤ b.time_seconds) ∧
      (∃ r0, out.head? = some r0 ∧ r0.time_seconds = wt ∧ r0.lengths_behind = 0) ∧
      (∀ r ∈ out, wt ≤ r.time_seconds ∧ r.time_seconds ≤ wt + 10.0 ∧
        0 ≤ r.lengths_behind ∧ r.lengths_behind ≤ 50.0) := by
  have hperm : List.Perm sortedU upd := hsort ▸ List.mergeSort_perm upd _
  have hbounds : ∀ p ∈ upd, wt ≤ p.2 ∧ p.2 ≤ wt + 10.0 := by
    intro p hp
    rw [hupd] at hp
    obtain ⟨q, _, rfl⟩ := List.mem_map.mp hp
    constructor
    · have : (0 : ℝ) ≤ max 0.0 (min (q.2 - min_t) 10.0) :=
        le_trans (by norm_num) (le_max_left 0.0 _)
      linarith
    · have : max 0.0 (min (q.2 - min_t) 10.0) ≤ 10.0 :=
        max_le (by norm_num) (min_le_right _ _)
      linarith
  have hwt_mem : ∃ p ∈ upd, p.2 = wt := by
    obtain ⟨m, hm, hmem, _⟩ := min?_spec (rr.map Prod.snd)
      (by simpa using hne)
    have hmt : min_t = m := by rw [hmin, hm]; rfl
    obtain ⟨q, hq, hq2⟩ := List.mem_map.mp hmem
    refine ⟨(q.1, wt + max 0.0 (min (q.2 - min_t) 10.0)), ?_, ?_⟩
    · rw [hupd]
      exact List.mem_map.mpr ⟨q, hq, rfl⟩
    · rw [hq2, hmt]
      norm_num
  have hsorted : sortedU.Pairwise (fun a b => a.2 ≤ b.2) :=
    hsort ▸ mergeSort_pairwise_le upd
  have hsne : sortedU ≠ [] := by
    intro hcon
    have h0 := hperm.length_eq
    rw [hcon, hupd] at h0
    simp only [List.length_nil, List.length_map] at h0
    exact hne (List.length_eq_zero.mp h0.symm)
  refine ⟨?_, ?_, ?_, ?_⟩
  · rw [hout, numberResults_map_pos wt 1 sortedU, numberResults_length wt 1 sortedU]
  · exact hout ▸ numberResults_pairwise wt 1 sortedU hsorted
  · cases hs0 : sortedU with
    | nil => exact absurd hs0 hsne
    | cons s0 srest =>
        have hs0wt : s0.2 = wt := by
          have hle : wt ≤ s0.2 := (hbounds s0 (hperm.subset (hs0 ▸ List.mem_cons_self _ _))).1
          obtain ⟨p, hpmem, hpwt⟩ := hwt_mem
          have hpin : p ∈ sortedU := (hperm.mem_iff).mpr hpmem
          rw [hs0] at hpin
          rcases List.mem_cons.mp hpin with rfl | hpin2
          · rw [hpwt]
          · have : s0.2 ≤ p.2 := by
              have hpc := List.pairwise_cons.mp (hs0 ▸ hsorted)
              exact hpc.1 p hpin2
            refine le_antisymm ?_ hle
            rw [← hpwt]
            exact this
        cases s0 with
        | mk sh st =>
            refine ⟨⟨1, sh.id, sh.name, st, (st - wt) / 0.20⟩, ?_, ?_, ?_⟩
            · rw [hout, hs0, numberResults]
              rfl
            · exact hs0wt
            · show (st - wt) / 0.20 = 0
              rw [show st = wt from hs0wt]
              norm_num
  · intro r hr
    rw [hout] at hr
    obtain ⟨q, hq, hrt, hrl⟩ := numberResults_mem wt 1 sortedU r hr
    have hb := hbounds q (hperm.subset hq)
    refine ⟨?_, ?_, ?_, ?_⟩
    · rw [hrt]; exact hb.1
    · rw [hrt]; exact hb.2
    · rw [hrl]
      have : (0 : ℝ) ≤ q.2 - wt := by linarith [hb.1]
      positivity
    · rw [hrl]
      have h10 : q.2 - wt ≤ 10.0 := by linarith [hb.2]
      have hdiv : (q.2 - wt) / 0.20 ≤ 10.0 / 0.20 :=
        (div_le_div_iff_of_pos_right (by norm_num : (0 : ℝ) < 0.20)).mpr h10
      have h50 : (10.0 : ℝ) / 0.20 = 50.0 := by norm_num
      linarith

/-- C10: for every `timed_results` call with a non-empty finish order,
the returned runner list is sorted by time in nondecreasing order with
positions numbered consecutively from 1, the position-1 runner's time
equals the reported winner time and its lengths-behind is 0, and every
runner's time exceeds the winner time by at most 10.0 seconds
(equivalently, every lengths-behind value lies in [0, 50]). -/
theorem timed_results_sorted (race : RaceMeta) (condition : Condition)
    (finish_order : List Horse) (scores : String → Option ℝ)
    (records_state : Records) (hne : finish_order ≠ []) :
    ∃ tr, (timed_results race condition finish_order scores records_state).1 = some tr ∧
      tr.runners.map RaceRunnerResult.pos = List.range' 1 tr.runners.length ∧
      tr.runners.Pairwise (fun a b => a.time_seconds ≤ b.time_seconds) ∧
      (∃ r0, tr.runners.head? = some r0 ∧ r0.time_seconds = tr.winner_time ∧
        r0.lengths_behind = 0) ∧
      (∀ r ∈ tr.runners, tr.winner_time ≤ r.time_seconds ∧
        r.time_seconds ≤ tr.winner_time + 10.0 ∧
        0 ≤ r.lengths_behind ∧ r.lengths_behind ≤ 50.0) := by
  unfold timed_results
  simp only []
  cases finish_order with
  | nil => exact absurd rfl hne
  | cons h0 rest =>
      simp only []
      by_cases hcond : condition
          = (if race.surface = .TURF then Condition.GOOD else Condition.SOFT)
      · rw [if_pos hcond]
        refine ⟨_, rfl, ?_, ?_, ?_, ?_⟩
        · exact (timed_out_spec _ _ _ _ _ _ rfl rfl rfl rfl (by simp)).1
        · exact (timed_out_spec _ _ _ _ _ _ rfl rfl rfl rfl (by simp)).2.1
        · exact (timed_out_spec _ _ _ _ _ _ rfl rfl rfl rfl (by simp)).2.2.1
        · exact (timed_out_spec _ _ _ _ _ _ rfl rfl rfl rfl (by simp)).2.2.2
      · rw [if_neg hcond]
        refine ⟨_, rfl, ?_, ?_, ?_, ?_⟩
        · exact (timed_out_spec _ _ _ _ _ _ rfl rfl rfl rfl (by simp)).1
        · exact (timed_out_spec _ _ _ _ _ _ rfl rfl rfl rfl (by simp)).2.1
        · exact (timed_out_spec _ _ _ _ _ _ rfl rfl rfl rfl (by simp)).2.2.1
        · exact (timed_out_spec _ _ _ _ _ _ rfl rfl rfl rfl (by simp)).2.2.2

/-- Witness for C10 at a concrete single-runner GOOD-turf race. -/
theorem timed_results_sorted_witness :
    ([mkHorse "P" 30] : List Horse) ≠ [] ∧
      ∃ tr, (timed_results raceMetaCC .GOOD [mkHorse "P" 30]
          (fun _ => some 0) recsOne).1 = some tr ∧
        tr.runners.map RaceRunnerResult.pos = List.range' 1 tr.runners.length ∧
        tr.runners.Pairwise (fun a b => a.time_seconds ≤ b.time_seconds) ∧
        (∃ r0, tr.runners.head? = some r0 ∧ r0.time_seconds = tr.winner_time ∧
          r0.lengths_behind = 0) ∧
        (∀ r ∈ tr.runners, tr.winner_time ≤ r.time_seconds ∧
          r.time_seconds ≤ tr.winner_time + 10.0 ∧
          0 ≤ r.lengths_behind ∧ r.lengths_behind ≤ 50.0) :=
  ⟨by simp,
    timed_results_sorted raceMetaCC .GOOD [mkHorse "P" 30] (fun _ => some 0)
      recsOne (by simp)⟩

end DOCSim
